import Mathlib

/-!
# Verification of the LoopyCut loop-detection engine

A shallow embedding of the loop-detection engine of the `loopycut` tool
(`frame_analyzer.py`, `frame_analyzer_gpu.py`, `loop_detector.py`, `utils.py`).

Modelling conventions, fixed once here:

* Python/NumPy floating-point numbers are idealised as exact rationals (`ℚ`).
* A video frame is represented by the data the analysis actually reads from it:
  its grayscale plane (`cv2.cvtColor(..., COLOR_RGB2GRAY)` of the stored frame),
  the grayscale plane of its 8×8 downscale (`cv2.resize(frame, (8, 8))` then
  grayscale; the input of perceptual hashing), and its three 256-bin colour
  histograms (`cv2.calcHist`).  These planes are produced by external OpenCV
  routines, so they are carried as fields of the `Frame` structure.
* `np.std`'s square root has no exact rational counterpart; it is modelled by a
  parameter `sqrtFn : ℚ → ℚ`, and theorems assume only the properties of a
  square root that they need (`GoodSqrt` below), which the real square root has.
* `cv2.resize` used to reconcile mismatched tile shapes is likewise a parameter
  `resizeFn : List ℚ → ℕ → List ℚ` (input plane, target length).
* Python's `list.sort(key=..., reverse=True)` is a stable descending sort; it is
  embedded as a stable insertion sort (`sortBySimDesc`, `sortByFinalDesc`).
* Perceptual hashes are carried as their bit lists (bit = pixel strictly above
  the 8×8 mean, as in `_fast_frame_hash_batch` / `calculate_frame_hash`); the
  Hamming distance of two hashes is the number of differing bits.
* Video decoding is modelled by a `video : List Frame` indexed by original
  frame number; the decoder is assumed to deliver every requested frame
  (no truncated streams).
-/

namespace LoopyCut

/-- `np.mean` of a list of rationals (mean of the empty list is the junk value 0,
which the sources only ever guard against, never use). -/
def listMean (l : List ℚ) : ℚ := l.sum / l.length

/-- `np.var`: population variance, the mean of squared deviations. -/
def listVar (l : List ℚ) : ℚ := listMean (l.map fun x => (x - listMean l) ^ 2)

/-- Python `int(x)` on a float: truncation toward zero. -/
def pyInt (q : ℚ) : ℤ := if 0 ≤ q then ⌊q⌋ else ⌈q⌉

/-- Python `range(a, b)`. -/
def pyRange (a b : ℕ) : List ℕ := List.range' a (b - a)

/-- A video frame, represented by the derived planes the analysis reads;
see the module docstring. -/
structure Frame where
  gray : List ℚ
  hash8 : List ℚ
  histR : List ℚ
  histG : List ℚ
  histB : List ℚ
deriving DecidableEq

instance : Inhabited Frame := ⟨⟨[], [], [], [], []⟩⟩

/-- A similar-frame pair `(i, j, similarity)` as produced by the pair search. -/
structure SimPair where
  i : ℕ
  j : ℕ
  s : ℚ
deriving DecidableEq

/-- Average-hash bits of an 8×8 grayscale plane: bit is set iff the pixel
strictly exceeds the plane's mean (`frame[y, x] > avg`). -/
def hashBits (plane : List ℚ) : List Bool :=
  plane.map fun px => decide (listMean plane < px)

/-- Hamming distance of two hash bit lists (number of differing bits). -/
def hammingDist (xs ys : List Bool) : ℕ :=
  (List.zipWith (fun a b => a != b) xs ys).count true

/-- Hash similarity `1 - hamming/64` (`_find_similar_by_hash`). -/
def hashSim (f g : Frame) : ℚ :=
  1 - (hammingDist (hashBits f.hash8) (hashBits g.hash8) : ℚ) / 64

/-- Single-pair SSIM of `_fast_ssim_batch`: the classical single-window formula
with `c1 = 0.01²`, `c2 = 0.03²`, a positive-denominator guard, and a final
clip to `[0, 1]` (`np.clip(..., 0.0, 1.0)`). -/
def gpuSsim (g1 g2 : List ℚ) : ℚ :=
  let mu1 := listMean g1
  let mu2 := listMean g2
  let v1 := listVar g1
  let v2 := listVar g2
  let cov := listMean (List.zipWith (fun a b => (a - mu1) * (b - mu2)) g1 g2)
  let num := (2 * mu1 * mu2 + 1 / 10000) * (2 * cov + 9 / 10000)
  let den := (mu1 ^ 2 + mu2 ^ 2 + 1 / 10000) * (v1 + v2 + 9 / 10000)
  let raw := if 0 < den then num / den else 0
  max 0 (min 1 raw)

/-- SSIM after reconciling tile shapes: when sizes differ the second tile is
resized to the first tile's size (`cv2.resize(gray2, ...)`). -/
def gpuSsimResized (resizeFn : List ℚ → ℕ → List ℚ) (g1 g2 : List ℚ) : ℚ :=
  gpuSsim g1 (if g2.length = g1.length then g2 else resizeFn g2 g1.length)

/-- `FrameAnalyzer.calculate_ssim`: same formula, no denominator guard, clamped
with `max(0.0, min(1.0, ssim))`. -/
def cpuSsim (resizeFn : List ℚ → ℕ → List ℚ) (g1 g2raw : List ℚ) : ℚ :=
  let g2 := if g2raw.length = g1.length then g2raw else resizeFn g2raw g1.length
  let mu1 := listMean g1
  let mu2 := listMean g2
  let v1 := listVar g1
  let v2 := listVar g2
  let cov := listMean (List.zipWith (fun a b => (a - mu1) * (b - mu2)) g1 g2)
  let num := (2 * mu1 * mu2 + 1 / 10000) * (2 * cov + 9 / 10000)
  let den := (mu1 ^ 2 + mu2 ^ 2 + 1 / 10000) * (v1 + v2 + 9 / 10000)
  max 0 (min 1 (num / den))

/-- `cv2.compareHist(..., HISTCMP_CORREL)`: Pearson correlation of two
histograms; OpenCV returns 1 when the deviation product degenerates. -/
def histCorrel (sqrtFn : ℚ → ℚ) (h1 h2 : List ℚ) : ℚ :=
  let mu1 := listMean h1
  let mu2 := listMean h2
  let s12 := (List.zipWith (fun a b => (a - mu1) * (b - mu2)) h1 h2).sum
  let s11 := (h1.map fun a => (a - mu1) ^ 2).sum
  let s22 := (h2.map fun b => (b - mu2) ^ 2).sum
  if s11 * s22 = 0 then 1 else s12 / sqrtFn (s11 * s22)

/-- `FrameAnalyzer.calculate_histogram_similarity`: mean of the per-channel
histogram correlations. -/
def histogramSimilarity (sqrtFn : ℚ → ℚ) (f g : Frame) : ℚ :=
  listMean [histCorrel sqrtFn f.histR g.histR,
            histCorrel sqrtFn f.histG g.histG,
            histCorrel sqrtFn f.histB g.histB]

/-- `FrameAnalyzer._calculate_similarity` hash branch: hex-string equality of
the two average hashes, which holds iff the bit lists are equal. -/
def cpuHashSim (f g : Frame) : ℚ :=
  if hashBits f.hash8 = hashBits g.hash8 then 1 else 0

/-- `FrameAnalyzer._calculate_similarity`; `none` models the `ValueError`
raised on an unknown method name. -/
def cpuCalcSimilarity (sqrtFn : ℚ → ℚ) (resizeFn : List ℚ → ℕ → List ℚ)
    (method : String) (f g : Frame) : Option ℚ :=
  if method = "ssim" then some (cpuSsim resizeFn f.gray g.gray)
  else if method = "histogram" then some (histogramSimilarity sqrtFn f g)
  else if method = "hash" then some (cpuHashSim f g)
  else if method = "combined" then
    some (6 / 10 * cpuSsim resizeFn f.gray g.gray +
          4 / 10 * histogramSimilarity sqrtFn f g)
  else none

/-- The upper-triangular pair enumeration common to all searchers:
`for i in range(n): for j in range(i+1, n): if sim >= threshold: emit`. -/
def pairEmit (simf : ℕ → ℕ → ℚ) (τ : ℚ) (n : ℕ) : List SimPair :=
  (pyRange 0 n).flatMap fun i =>
    (pyRange (i + 1) n).filterMap fun j =>
      if τ ≤ simf i j then some ⟨i, j, simf i j⟩ else none

/-- One step of the stable descending insertion modelling Python's stable
`sort(key=lambda x: x[2], reverse=True)`: a new element passes strictly
greater elements and stops before the first element not greater than it, so
equal elements keep their original relative order. -/
def insertBySimDesc (x : SimPair) : List SimPair → List SimPair
  | [] => [x]
  | y :: ys => if x.s < y.s then y :: insertBySimDesc x ys else x :: y :: ys

/-- Stable descending sort by similarity (Python `list.sort(key=..., reverse=True)`). -/
def sortBySimDesc : List SimPair → List SimPair
  | [] => []
  | x :: xs => insertBySimDesc x (sortBySimDesc xs)

/-- The known methods of `FrameAnalyzer._calculate_similarity`. -/
def cpuMethodKnown (method : String) : Bool :=
  method = "ssim" || method = "histogram" || method = "hash" || method = "combined"

/-- The effective frame list of a searcher call: the argument, or the
analyzer's cache when the argument is `None`. -/
def effFrames (cache : List Frame) (framesArg : Option (List Frame)) : List Frame :=
  framesArg.getD cache

/-- `FrameAnalyzer.find_similar_frames`.  `frames = None` falls back to the
cache; an empty effective list raises `ValueError` (modelled as `.error`);
an unknown method raises at the first comparison, which exists iff there are
at least two frames.  Results are sorted by similarity, highest first. -/
def cpuFindSimilarFrames (sqrtFn : ℚ → ℚ) (resizeFn : List ℚ → ℕ → List ℚ)
    (τ : ℚ) (cache : List Frame) (framesArg : Option (List Frame))
    (method : String) : Except String (List SimPair) :=
  if (effFrames cache framesArg).isEmpty then .error "No frames available for analysis"
  else if 2 ≤ (effFrames cache framesArg).length ∧ ¬ cpuMethodKnown method then
    .error "Unknown similarity method"
  else
    .ok (sortBySimDesc (pairEmit
      (fun i j => (cpuCalcSimilarity sqrtFn resizeFn method
        ((effFrames cache framesArg).getD i default)
        ((effFrames cache framesArg).getD j default)).getD 0)
      τ (effFrames cache framesArg).length))

/-- Mutable state of a `GPUFrameAnalyzer` as far as the engine reads it:
the similarity threshold and the frames cache. -/
structure GPUState where
  threshold : ℚ
  framesCache : List Frame
deriving DecidableEq

/-- `GPUFrameAnalyzer._find_similar_by_hash` at a given threshold. -/
def gpuFindByHash (τ : ℚ) (frames : List Frame) : List SimPair :=
  sortBySimDesc (pairEmit
    (fun i j => hashSim (frames.getD i default) (frames.getD j default))
    τ frames.length)

/-- `GPUFrameAnalyzer._find_similar_by_batch_ssim`; batching only groups the
`(i, j)` traversal, which still visits `j` in increasing order per `i`. -/
def gpuBatchSsim (resizeFn : List ℚ → ℕ → List ℚ) (τ : ℚ)
    (frames : List Frame) : List SimPair :=
  sortBySimDesc (pairEmit
    (fun i j => gpuSsimResized resizeFn
      (frames.getD i default).gray (frames.getD j default).gray)
    τ frames.length)

/-- `GPUFrameAnalyzer._find_similar_hybrid`, with the temporary mutation of
`self.similarity_threshold` made explicit: the hash pre-filter runs at
`max(0.8, threshold - 0.1)`, the original threshold is restored, survivors are
SSIM-verified at the original threshold and scored `0.3·hash + 0.7·ssim`, and
the result is sorted by score, highest first. -/
def gpuHybridSt (resizeFn : List ℚ → ℕ → List ℚ) (st : GPUState)
    (frames : List Frame) : List SimPair × GPUState :=
  let hashThr := max (8 / 10) (st.threshold - 1 / 10)
  let st1 : GPUState := { st with threshold := hashThr }
  let hashCands := gpuFindByHash st1.threshold frames
  let st2 : GPUState := { st1 with threshold := st.threshold }
  if hashCands.isEmpty then ([], st2)
  else
    (sortBySimDesc (hashCands.filterMap fun p =>
      if st.threshold ≤ gpuSsimResized resizeFn
          (frames.getD p.i default).gray (frames.getD p.j default).gray then
        some ⟨p.i, p.j, 3 / 10 * p.s + 7 / 10 * gpuSsimResized resizeFn
          (frames.getD p.i default).gray (frames.getD p.j default).gray⟩
      else none), st2)

/-- `GPUFrameAnalyzer.find_similar_frames_optimized`: cache fallback, empty
check, then dispatch on the method tag.  Returns the result (or the raised
error) together with the analyzer state after the call. -/
def gpuFindSimilarOptimized (resizeFn : List ℚ → ℕ → List ℚ) (st : GPUState)
    (framesArg : Option (List Frame)) (method : String) :
    Except String (List SimPair) × GPUState :=
  if (effFrames st.framesCache framesArg).isEmpty then
    (.error "No frames available for analysis", st)
  else if method = "fast_hash" then
    (.ok (gpuFindByHash st.threshold (effFrames st.framesCache framesArg)), st)
  else if method = "batch_ssim" then
    (.ok (gpuBatchSsim resizeFn st.threshold (effFrames st.framesCache framesArg)), st)
  else if method = "hybrid" then
    (.ok (gpuHybridSt resizeFn st (effFrames st.framesCache framesArg)).1,
     (gpuHybridSt resizeFn st (effFrames st.framesCache framesArg)).2)
  else (.error "Unknown method", st)

/-- Original frame indices stored by `GPUFrameAnalyzer.extract_frames`: the
loop reads original frames `start_frame, ..., end_frame - 1` and keeps those
whose running counter is a multiple of `downsample_factor`. -/
def gpuExtractIndices (startF endF d : ℕ) : List ℕ :=
  (pyRange startF endF).filter fun idx => (idx - startF) % d = 0

/-- `GPUFrameAnalyzer.get_original_frame_index`: list lookup with the
compatibility fallback returning the extracted index itself. -/
def getOriginalFrameIndex (origList : List ℕ) (k : ℕ) : ℕ :=
  if k < origList.length then origList.getD k 0 else k

/-- The frames produced by `GPUFrameAnalyzer.extract_frames` from a decoded
video (frame content by original index). -/
def gpuExtractFrames (video : List Frame) (startF endF d : ℕ) : List Frame :=
  (gpuExtractIndices startF endF d).map fun k => video.getD k default

/-- `FrameAnalyzer.extract_frames` reads every frame of the window:
the `k`-th extracted frame is original frame `start_frame + k`. -/
def cpuExtractIndices (startF endF : ℕ) : List ℕ := pyRange startF endF

/-- The frames produced by `FrameAnalyzer.extract_frames`. -/
def cpuExtractFrames (video : List Frame) (startF endF : ℕ) : List Frame :=
  (cpuExtractIndices startF endF).map fun k => video.getD k default

/-- The original-index mapping `_analyze_loop_candidates` applies on the
non-GPU branch: `frame_offset + idx * downsample_factor`. -/
def cpuRecordedOrig (offset d k : ℕ) : ℕ := offset + k * d

/-- A loop candidate dictionary (`_analyze_loop_candidates`), with
`final_score` added later by `_rank_loop_candidates` (0 until then). -/
structure Candidate where
  startFrame : ℕ
  endFrame : ℕ
  startTime : ℚ
  endTime : ℚ
  duration : ℚ
  frameCount : ℤ
  similarity : ℚ
  quality : ℚ
  fps : ℚ
  dsFactor : ℕ
  finalScore : ℚ
deriving DecidableEq

/-- `np.linspace(0, nm1, count, dtype=int)`: the evenly spaced grid, truncated
to integers.  For the values arising here (`nm1` integral, `count = 5`) the
floating-point grid is exact, so truncation is exact floor division. -/
def npLinspaceIdx (nm1 count : ℕ) : List ℕ :=
  (List.range count).map fun m => m * nm1 / (count - 1)

/-- `cv2.absdiff` of two grayscale planes followed by `np.mean`. -/
def absDiffMean (g1 g2 : List ℚ) : ℚ :=
  listMean (List.zipWith (fun a b => |a - b|) g1 g2)

/-- The consecutive grayscale absolute-difference means of a frame sample
(`differences` in `_analyze_motion_consistency`). -/
def frameDiffs (sampleFrames : List Frame) : List ℚ :=
  List.zipWith (fun f g => absDiffMean f.gray g.gray) sampleFrames sampleFrames.tail

/-- `LoopDetector._analyze_motion_consistency`: consecutive absolute
difference means; `1` for fewer than two frames, for no differences, or for
zero mean difference; otherwise `max(0, 1 - std/mean)`. -/
def motionConsistency (sqrtFn : ℚ → ℚ) (sampleFrames : List Frame) : ℚ :=
  if sampleFrames.length < 2 then 1
  else if (frameDiffs sampleFrames).isEmpty then 1
  else if listMean (frameDiffs sampleFrames) = 0 then 1
  else max 0 (1 - sqrtFn (listVar (frameDiffs sampleFrames)) /
    listMean (frameDiffs sampleFrames))

/-- The frames sampled by `_calculate_loop_quality` from a loop slice:
`min(5, len)` evenly spaced positions of `np.linspace(0, len-1, ...)`. -/
def loopSamples (loopFrames : List Frame) : List Frame :=
  (npLinspaceIdx (loopFrames.length - 1) (min 5 loopFrames.length)).map
    fun k => loopFrames.getD k default

/-- `LoopDetector._calculate_loop_quality`: base score is the boundary
similarity; when the slice `frames[start:end+1]` holds more than 10 frames,
`min(5, len)` evenly spaced frames are sampled and the score becomes
`0.7·similarity + 0.3·motion_consistency`. -/
def calcLoopQuality (sqrtFn : ℚ → ℚ) (frames : List Frame) (i j : ℕ)
    (s : ℚ) : ℚ :=
  if 10 < ((frames.drop i).take (j + 1 - i)).length then
    7 / 10 * s + 3 / 10 * motionConsistency sqrtFn
      (loopSamples ((frames.drop i).take (j + 1 - i)))
  else s

/-- `loop_duration` of `_analyze_loop_candidates`: recorded frame span over
the frame rate. -/
def loopDur (origIdx : ℕ → ℕ) (fps : ℚ) (p : SimPair) : ℚ :=
  (((origIdx p.j : ℤ) - (origIdx p.i : ℤ) : ℤ) : ℚ) / fps

/-- The length filter of `_analyze_loop_candidates`: a numeric desired length
discards loops whose duration deviates by more than 20 %. -/
def tooFarFromDesired (desired : Option ℚ) (dur : ℚ) : Bool :=
  match desired with
  | some L => decide (L * (1 / 5) < |dur - L|)
  | none => false

/-- The candidate dictionary assembled by `_analyze_loop_candidates`. -/
def mkCandidate (sqrtFn : ℚ → ℚ) (origIdx : ℕ → ℕ) (fps : ℚ) (d : ℕ)
    (frames : List Frame) (p : SimPair) : Candidate :=
  { startFrame := origIdx p.i, endFrame := origIdx p.j
    startTime := (origIdx p.i : ℚ) / fps, endTime := (origIdx p.j : ℚ) / fps
    duration := loopDur origIdx fps p
    frameCount := (origIdx p.j : ℤ) - (origIdx p.i : ℤ)
    similarity := p.s
    quality := calcLoopQuality sqrtFn frames p.i p.j p.s
    fps := fps, dsFactor := d, finalScore := 0 }

/-- `LoopDetector._analyze_loop_candidates`: convert pair indices to original
frame indices through `origIdx`, drop loops shorter than 0.5 s, drop loops
farther than 20 % from a numeric desired length, and assemble the candidate. -/
def analyzeLoopCandidates (sqrtFn : ℚ → ℚ) (origIdx : ℕ → ℕ) (fps : ℚ)
    (desired : Option ℚ) (d : ℕ) (frames : List Frame)
    (pairs : List SimPair) : List Candidate :=
  pairs.filterMap fun p =>
    if loopDur origIdx fps p < 1 / 2 then none
    else if tooFarFromDesired desired (loopDur origIdx fps p) then none
    else some (mkCandidate sqrtFn origIdx fps d frames p)

/-- The final score assigned by `_rank_loop_candidates`: quality, shaped by
the length preference (at most a 50 % penalty) when a numeric desired length
is given, plus a duration bonus capped at 0.1. -/
def rankScore (desired : Option ℚ) (c : Candidate) : ℚ :=
  (match desired with
   | some L => c.quality * (1 - min (1 / 2) (|c.duration - L| / L))
   | none => c.quality) + min (1 / 10) (c.duration / 10)

/-- Stable descending insertion by final score (Python stable sort). -/
def insertByFinalDesc (x : Candidate) : List Candidate → List Candidate
  | [] => [x]
  | y :: ys => if x.finalScore < y.finalScore then y :: insertByFinalDesc x ys
               else x :: y :: ys

/-- Stable descending sort by final score. -/
def sortByFinalDesc : List Candidate → List Candidate
  | [] => []
  | x :: xs => insertByFinalDesc x (sortByFinalDesc xs)

/-- `LoopDetector._rank_loop_candidates`. -/
def rankLoopCandidates (desired : Option ℚ) (cands : List Candidate) :
    List Candidate :=
  if cands.isEmpty then []
  else sortByFinalDesc (cands.map fun c =>
    { c with finalScore := rankScore desired c })

/-- The window resolution of `LoopDetector.detect_loops` before clamping:
seconds are converted through `int(t * fps)`, explicit frame arguments take
precedence, and a missing end defaults to `total_frames`. -/
def preClampWindow (totalFrames : ℤ) (fps startTime : ℚ) (endTime : Option ℚ)
    (startFrameArg endFrameArg : Option ℤ) : ℤ × ℤ :=
  (startFrameArg.getD (pyInt (startTime * fps)),
   endFrameArg.getD (match endTime with
     | some et => pyInt (et * fps)
     | none => totalFrames))

/-- The window resolution of `LoopDetector.detect_loops` (lines 66–77):
`start = max(0, min(start, total - 1))`, `end = max(start + 1, min(end, total))`. -/
def resolveWindow (totalFrames : ℤ) (fps startTime : ℚ) (endTime : Option ℚ)
    (startFrameArg endFrameArg : Option ℤ) : ℤ × ℤ :=
  (max 0 (min (preClampWindow totalFrames fps startTime endTime
      startFrameArg endFrameArg).1 (totalFrames - 1)),
   max (max 0 (min (preClampWindow totalFrames fps startTime endTime
      startFrameArg endFrameArg).1 (totalFrames - 1)) + 1)
     (min (preClampWindow totalFrames fps startTime endTime
      startFrameArg endFrameArg).2 totalFrames))

/-- Which analyzer `detect_loops` was constructed with. -/
inductive AnalyzerKind
  | cpu
  | gpu
deriving DecidableEq

/-- The body of `detect_loops` once the window `[s, e)` is resolved: extract
frames with the analyzer at hand, search for similar pairs, turn them into
candidates, and rank. -/
def detectLoopsFromWindow (kind : AnalyzerKind) (sqrtFn : ℚ → ℚ)
    (resizeFn : List ℚ → ℕ → List ℚ) (τ : ℚ) (fps : ℚ) (desired : Option ℚ)
    (d : ℕ) (method : String) (video : List Frame) (s e : ℕ) :
    Except String (List Candidate) :=
  match kind with
  | .gpu =>
    match (gpuFindSimilarOptimized resizeFn ⟨τ, []⟩
        (some (gpuExtractFrames video s e d)) method).1 with
    | .error msg => .error msg
    | .ok pairs =>
      if pairs.isEmpty then .ok []
      else .ok (rankLoopCandidates desired (analyzeLoopCandidates sqrtFn
        (getOriginalFrameIndex (gpuExtractIndices s e d)) fps desired d
        (gpuExtractFrames video s e d) pairs))
  | .cpu =>
    match cpuFindSimilarFrames sqrtFn resizeFn τ []
        (some (cpuExtractFrames video s e)) method with
    | .error msg => .error msg
    | .ok pairs =>
      if pairs.isEmpty then .ok []
      else .ok (rankLoopCandidates desired (analyzeLoopCandidates sqrtFn
        (fun k => cpuRecordedOrig s d k) fps desired d
        (cpuExtractFrames video s e) pairs))

/-- `LoopDetector.detect_loops`, composed over a decoded `video`: resolve the
window, then run the pipeline on it.  `extract_frames` raises when the
clamped start is outside the video (possible only for an empty video). -/
def detectLoops (kind : AnalyzerKind) (sqrtFn : ℚ → ℚ)
    (resizeFn : List ℚ → ℕ → List ℚ) (τ : ℚ) (fps : ℚ) (desired : Option ℚ)
    (startTime : ℚ) (endTime : Option ℚ) (startFrameArg endFrameArg : Option ℤ)
    (d : ℕ) (method : String) (video : List Frame) :
    Except String (List Candidate) :=
  if (video.length : ℤ) ≤ (resolveWindow (video.length : ℤ) fps startTime
      endTime startFrameArg endFrameArg).1 then .error "Invalid start_frame"
  else
    detectLoopsFromWindow kind sqrtFn resizeFn τ fps desired d method video
      (resolveWindow (video.length : ℤ) fps startTime endTime
        startFrameArg endFrameArg).1.toNat
      (resolveWindow (video.length : ℤ) fps startTime endTime
        startFrameArg endFrameArg).2.toNat

/-- Split the longest leading run of ASCII digits off a character list. -/
def takeDigits : List Char → List Char × List Char
  | [] => ([], [])
  | c :: cs =>
    if c.isDigit then
      let p := takeDigits cs
      (c :: p.1, p.2)
    else ([], c :: cs)

/-- Value of a list of ASCII digits, most significant first. -/
def digitsVal (ds : List Char) : ℕ :=
  ds.foldl (fun a c => a * 10 + (c.toNat - 48)) 0

/-- Strip leading and trailing spaces (Python's `str.strip()`; the engine's
inputs use plain spaces as whitespace). -/
def stripSpaces (cs : List Char) : List Char :=
  ((cs.dropWhile (· = ' ')).reverse.dropWhile (· = ' ')).reverse

/-- Consume an optional leading sign; returns whether the value is negated. -/
def pySign : List Char → Bool × List Char
  | [] => (false, [])
  | c :: cs =>
    if c = '+' then (false, cs)
    else if c = '-' then (true, cs)
    else (false, c :: cs)

/-- The mantissa of a Python float literal: `digits`, `digits.`, `digits.digits`
or `.digits`; returns its value and the unconsumed rest. -/
def pyFloatMantissa (cs : List Char) : Option (ℚ × List Char) :=
  match takeDigits cs with
  | (ds, []) => if ds.isEmpty then none else some ((digitsVal ds : ℚ), [])
  | (ds, c :: r2) =>
    if c = '.' then
      if ds.isEmpty ∧ (takeDigits r2).1.isEmpty then none
      else some ((digitsVal ds : ℚ) + (digitsVal (takeDigits r2).1 : ℚ) /
        10 ^ (takeDigits r2).1.length, (takeDigits r2).2)
    else if ds.isEmpty then none else some ((digitsVal ds : ℚ), c :: r2)

/-- An optional exponent part `e`/`E`, optional sign, digits; returns the
signed exponent (0 when absent) and the unconsumed rest, or `none` for a
malformed exponent. -/
def pyFloatExp : List Char → Option (ℤ × List Char)
  | [] => some (0, [])
  | c :: cs =>
    if c = 'e' ∨ c = 'E' then
      let p := pySign cs
      let q := takeDigits p.2
      if q.1.isEmpty then none
      else some ((if p.1 then -(digitsVal q.1 : ℤ) else (digitsVal q.1 : ℤ)), q.2)
    else some (0, c :: cs)

/-- Model of Python's `float(str)` restricted to finite decimal literals:
surrounding whitespace, an optional sign, a decimal mantissa, an optional
exponent.  (`inf`/`nan` and digit-group underscores are not modelled; no claim
depends on them.) -/
def pyFloatOfList (cs : List Char) : Option ℚ :=
  let t := stripSpaces cs
  let p := pySign t
  match pyFloatMantissa p.2 with
  | none => none
  | some (m, r) =>
    match pyFloatExp r with
    | none => none
    | some (ex, r2) =>
      if r2.isEmpty then some ((if p.1 then -m else m) * (10 : ℚ) ^ ex)
      else none

/-- Model of Python's `int(str)`: surrounding whitespace, an optional sign,
a nonempty run of digits. -/
def pyIntOfList (cs : List Char) : Option ℤ :=
  let t := stripSpaces cs
  let p := pySign t
  if p.2.isEmpty ∨ ¬ p.2.all Char.isDigit then none
  else some (if p.1 then -(digitsVal p.2 : ℤ) else (digitsVal p.2 : ℤ))

/-- Python's `str.split(':')`. -/
def splitOnColon : List Char → List (List Char)
  | [] => [[]]
  | c :: cs =>
    if c = ':' then [] :: splitOnColon cs
    else
      match splitOnColon cs with
      | [] => [[c]]
      | p :: ps => (c :: p) :: ps

/-- The second (and therefore effective) `parse_time_string` of `utils.py`
(lines 140–174): first try `float(...)`; otherwise split on `:` and interpret
2 parts as `MM:SS` and 3 parts as `HH:MM:SS`; anything else raises
(`none`). Failures of the inner `int`/`float` calls propagate. -/
def parse_time_string (s : String) : Option ℚ :=
  match pyFloatOfList s.toList with
  | some v => some v
  | none =>
    match splitOnColon s.toList with
    | [m, sec] => do
      let mv ← pyIntOfList m
      let sv ← pyFloatOfList sec
      pure ((mv : ℚ) * 60 + sv)
    | [h, m, sec] => do
      let hv ← pyIntOfList h
      let mv ← pyIntOfList m
      let sv ← pyFloatOfList sec
      pure ((hv : ℚ) * 3600 + (mv : ℚ) * 60 + sv)
    | _ => none

/-- `(\.\d+)?$` — an optional fractional tail. -/
def fracTail : List Char → Bool
  | [] => true
  | '.' :: ds => !ds.isEmpty && ds.all Char.isDigit
  | _ => false

/-- Value of an optional fractional tail (assuming `fracTail`). -/
def fracVal : List Char → ℚ
  | '.' :: ds => (digitsVal ds : ℚ) / 10 ^ ds.length
  | _ => 0

/-- `^\d{1,2}$`. -/
def oneTwoDigits : List Char → Bool
  | [a] => a.isDigit
  | [a, b] => a.isDigit && b.isDigit
  | _ => false

/-- `^\d{2}(\.\d+)?$` — a seconds field. -/
def secField : List Char → Bool
  | a :: b :: rest => a.isDigit && b.isDigit && fracTail rest
  | _ => false

/-- Value of a seconds field (assuming `secField`). -/
def secFieldVal : List Char → ℚ
  | a :: b :: rest => ((a.toNat - 48) * 10 + (b.toNat - 48) : ℕ) + fracVal rest
  | _ => 0

/-- `^\d+(\.\d+)?$` — plain seconds — together with its value. -/
def plainSecondsVal (cs : List Char) : Option ℚ :=
  match takeDigits cs with
  | (ds, []) => if ds.isEmpty then none else some (digitsVal ds : ℚ)
  | (ds, c :: fs) =>
    if ds.isEmpty then none
    else if c = '.' ∧ (!fs.isEmpty && fs.all Char.isDigit) = true then
      some ((digitsVal ds : ℚ) + (digitsVal fs : ℚ) / 10 ^ fs.length)
    else none

/-- The first, shadowed `parse_time_string` of `utils.py` (lines 16–63), whose
regular expressions are exactly the three claimed forms `HH:MM:SS[.frac]`,
`MM:SS[.frac]` and plain seconds: it strips the input, matches one of the
three patterns against the whole string, and evaluates it. -/
def claimedParse (s : String) : Option ℚ :=
  let t := stripSpaces s.toList
  match splitOnColon t with
  | [p1, p2, p3] =>
    if oneTwoDigits p1 && (p2.length = 2 && p2.all Char.isDigit) && secField p3 then
      some ((digitsVal p1 : ℚ) * 3600 + (digitsVal p2 : ℚ) * 60 + secFieldVal p3)
    else none
  | [p1, p2] =>
    if oneTwoDigits p1 && secField p2 then
      some ((digitsVal p1 : ℚ) * 60 + secFieldVal p2)
    else none
  | [p1] => plainSecondsVal p1
  | _ => none

/-- Strict lexicographic order on the index part of a pair. -/
def lexLT (a b : SimPair) : Prop := a.i < b.i ∨ (a.i = b.i ∧ a.j < b.j)

instance (a b : SimPair) : Decidable (lexLT a b) :=
  inferInstanceAs (Decidable (_ ∨ _))

/-- The ordering the specification claims of every returned pair list:
similarity descending, ties broken by `i` ascending then `j` ascending. -/
def DescLexOrder (l : List SimPair) : Prop :=
  l.Pairwise fun a b => b.s < a.s ∨ (b.s = a.s ∧ lexLT a b)

instance (l : List SimPair) : Decidable (DescLexOrder l) :=
  List.instDecidablePairwise l

theorem mem_insertBySimDesc {a x : SimPair} {l : List SimPair} :
    a ∈ insertBySimDesc x l ↔ a = x ∨ a ∈ l := by
  induction l with
  | nil => simp [insertBySimDesc]
  | cons y ys ih =>
    simp only [insertBySimDesc]
    split
    · simp only [List.mem_cons, ih]
      tauto
    · simp only [List.mem_cons]

theorem mem_sortBySimDesc {a : SimPair} {l : List SimPair} :
    a ∈ sortBySimDesc l ↔ a ∈ l := by
  induction l with
  | nil => simp [sortBySimDesc]
  | cons x xs ih => simp [sortBySimDesc, mem_insertBySimDesc, ih]

theorem sortBySimDesc_eq_nil {l : List SimPair} :
    sortBySimDesc l = [] ↔ l = [] := by
  cases l with
  | nil => simp [sortBySimDesc]
  | cons x xs =>
    simp only [sortBySimDesc]
    constructor
    · intro h
      have : x ∈ insertBySimDesc x (sortBySimDesc xs) := mem_insertBySimDesc.mpr (Or.inl rfl)
      rw [h] at this
      exact absurd this (List.not_mem_nil x)
    · intro h; exact absurd h (List.cons_ne_nil x xs)

theorem insertBySimDesc_pairwise {x : SimPair} {l : List SimPair}
    (hl : l.Pairwise fun a b => b.s < a.s ∨ (b.s = a.s ∧ lexLT a b))
    (hx : ∀ y ∈ l, lexLT x y) :
    (insertBySimDesc x l).Pairwise fun a b => b.s < a.s ∨ (b.s = a.s ∧ lexLT a b) := by
  induction l with
  | nil => simp [insertBySimDesc]
  | cons y ys ih =>
    rw [List.pairwise_cons] at hl
    simp only [insertBySimDesc]
    split
    · rename_i hxy
      refine List.Pairwise.cons ?_ (ih hl.2 fun z hz => hx z (List.mem_cons_of_mem y hz))
      intro z hz
      rcases mem_insertBySimDesc.mp hz with rfl | hz
      · exact Or.inl hxy
      · exact hl.1 z hz
    · rename_i hxy
      push_neg at hxy
      refine List.Pairwise.cons ?_ (List.Pairwise.cons hl.1 hl.2)
      intro z hz
      rcases List.mem_cons.mp hz with rfl | hz
      · rcases lt_or_eq_of_le hxy with h | h
        · exact Or.inl h
        · exact Or.inr ⟨h, hx z (List.mem_cons_self z ys)⟩
      · rcases hl.1 z hz with h | ⟨heq, hlex⟩
        · exact Or.inl (lt_of_lt_of_le h hxy)
        · rcases lt_or_eq_of_le hxy with h2 | h2
          · exact Or.inl (heq ▸ h2)
          · exact Or.inr ⟨heq.trans h2, hx z (List.mem_cons_of_mem y hz)⟩

theorem sortBySimDesc_descLex {l : List SimPair} (h : l.Pairwise lexLT) :
    DescLexOrder (sortBySimDesc l) := by
  induction l with
  | nil => exact List.Pairwise.nil
  | cons x xs ih =>
    rw [List.pairwise_cons] at h
    exact insertBySimDesc_pairwise (ih h.2)
      fun y hy => h.1 y (mem_sortBySimDesc.mp hy)

theorem insertBySimDesc_sorted {x : SimPair} {l : List SimPair}
    (hl : l.Pairwise fun a b => b.s ≤ a.s) :
    (insertBySimDesc x l).Pairwise fun a b => b.s ≤ a.s := by
  induction l with
  | nil => simp [insertBySimDesc]
  | cons y ys ih =>
    rw [List.pairwise_cons] at hl
    simp only [insertBySimDesc]
    split
    · rename_i hxy
      refine List.Pairwise.cons ?_ (ih hl.2)
      intro z hz
      rcases mem_insertBySimDesc.mp hz with rfl | hz
      · exact le_of_lt hxy
      · exact hl.1 z hz
    · rename_i hxy
      push_neg at hxy
      refine List.Pairwise.cons ?_ (List.Pairwise.cons hl.1 hl.2)
      intro z hz
      rcases List.mem_cons.mp hz with rfl | hz
      · exact hxy
      · exact le_trans (hl.1 z hz) hxy

theorem sortBySimDesc_sorted (l : List SimPair) :
    (sortBySimDesc l).Pairwise fun a b => b.s ≤ a.s := by
  induction l with
  | nil => exact List.Pairwise.nil
  | cons x xs ih => exact insertBySimDesc_sorted ih

theorem mem_insertByFinalDesc {a x : Candidate} {l : List Candidate} :
    a ∈ insertByFinalDesc x l ↔ a = x ∨ a ∈ l := by
  induction l with
  | nil => simp [insertByFinalDesc]
  | cons y ys ih =>
    simp only [insertByFinalDesc]
    split
    · simp only [List.mem_cons, ih]
      tauto
    · simp only [List.mem_cons]

theorem mem_sortByFinalDesc {a : Candidate} {l : List Candidate} :
    a ∈ sortByFinalDesc l ↔ a ∈ l := by
  induction l with
  | nil => simp [sortByFinalDesc]
  | cons x xs ih => simp [sortByFinalDesc, mem_insertByFinalDesc, ih]

theorem mem_pairEmit {p : SimPair} {simf : ℕ → ℕ → ℚ} {τ : ℚ} {n : ℕ} :
    p ∈ pairEmit simf τ n ↔
      p.i < p.j ∧ p.j < n ∧ τ ≤ simf p.i p.j ∧ p.s = simf p.i p.j := by
  unfold pairEmit pyRange
  simp only [List.mem_flatMap, List.mem_filterMap, List.mem_range']
  constructor
  · rintro ⟨i, ⟨k, hk, rfl⟩, j, ⟨k2, hk2, rfl⟩, hif⟩
    split at hif
    · rename_i hτ
      cases hif
      refine ⟨?_, ?_, hτ, rfl⟩ <;> dsimp only <;> omega
    · exact absurd hif (by simp)
  · rintro ⟨hij, hjn, hτ, hs⟩
    refine ⟨p.i, ⟨p.i, by omega, by omega⟩, p.j, ⟨p.j - (p.i + 1), by omega, by omega⟩, ?_⟩
    rw [if_pos hτ]
    cases p
    simp only at hs ⊢
    rw [hs]

theorem pairEmit_inner_i {i n : ℕ} {simf : ℕ → ℕ → ℚ} {τ : ℚ} {p : SimPair}
    (hp : p ∈ (List.range' (i + 1) (n - (i + 1))).filterMap fun j =>
      if τ ≤ simf i j then some ⟨i, j, simf i j⟩ else none) : p.i = i := by
  rcases List.mem_filterMap.mp hp with ⟨j, _, hj⟩
  split at hj
  · cases hj; rfl
  · exact absurd hj (by simp)

theorem pairEmit_pairwise_lexLT (simf : ℕ → ℕ → ℚ) (τ : ℚ) (n : ℕ) :
    (pairEmit simf τ n).Pairwise lexLT := by
  unfold pairEmit pyRange
  rw [List.pairwise_flatMap]
  constructor
  · intro i _
    refine List.Pairwise.filterMap _ ?_ (List.pairwise_lt_range' _ _)
    intro j1 j2 hj b hb b' hb'
    split at hb
    · split at hb'
      · rw [Option.mem_def, Option.some.injEq] at hb hb'
        subst hb; subst hb'
        exact Or.inr ⟨rfl, hj⟩
      · exact absurd hb' (by simp)
    · exact absurd hb (by simp)
  · refine List.Pairwise.imp ?_ (List.pairwise_lt_range' 0 n)
    intro i1 i2 h12 x hx y hy
    exact Or.inl (by rw [pairEmit_inner_i hx, pairEmit_inner_i hy]; exact h12)

/-- The properties of a (floating-point) square root the development relies
on: nonnegative outputs, and outputs whose square dominates the input. -/
def GoodSqrt (sqrtFn : ℚ → ℚ) : Prop :=
  ∀ x : ℚ, 0 ≤ x → 0 ≤ sqrtFn x ∧ x ≤ sqrtFn x ^ 2

/-- A concrete `GoodSqrt` function used by witnesses. -/
def sqrtOne (x : ℚ) : ℚ := max 1 x

theorem goodSqrt_sqrtOne : GoodSqrt sqrtOne := by
  intro x hx
  unfold sqrtOne
  constructor
  · exact le_trans zero_le_one (le_max_left 1 x)
  · rcases le_or_lt x 1 with h | h
    · calc x ≤ 1 := h
        _ = 1 ^ 2 := by norm_num
        _ ≤ max 1 x ^ 2 := by
            have h1 : (1 : ℚ) ≤ max 1 x := le_max_left 1 x
            nlinarith
    · have h1 : max 1 x = x := max_eq_right (le_of_lt h)
      rw [h1]
      nlinarith

theorem listSum_nonneg {l : List ℚ} (h : ∀ x ∈ l, 0 ≤ x) : 0 ≤ l.sum := by
  induction l with
  | nil => simp
  | cons x xs ih =>
    simp only [List.sum_cons]
    have := h x (List.mem_cons_self x xs)
    have := ih fun y hy => h y (List.mem_cons_of_mem x hy)
    linarith

theorem listMean_nonneg {l : List ℚ} (h : ∀ x ∈ l, 0 ≤ x) : 0 ≤ listMean l := by
  unfold listMean
  exact div_nonneg (listSum_nonneg h) (Nat.cast_nonneg _)

theorem listVar_nonneg (l : List ℚ) : 0 ≤ listVar l := by
  unfold listVar
  refine listMean_nonneg ?_
  intro x hx
  rcases List.mem_map.mp hx with ⟨a, _, rfl⟩
  positivity

theorem sqSum_nonneg (l : List ℚ) : 0 ≤ (l.map fun x => x ^ 2).sum := by
  refine listSum_nonneg ?_
  intro x hx
  rcases List.mem_map.mp hx with ⟨a, _, rfl⟩
  positivity

/-- Cauchy–Schwarz for the zipped product of two rational lists. -/
theorem zipWith_cauchy_schwarz : ∀ (a b : List ℚ),
    ((List.zipWith (fun x y => x * y) a b).sum) ^ 2 ≤
      ((a.map fun x => x ^ 2).sum) * ((b.map fun x => x ^ 2).sum) := by
  intro a
  induction a with
  | nil => intro b; simp
  | cons x xs ih =>
    intro b
    cases b with
    | nil =>
      simp only [List.zipWith_nil_right, List.sum_nil]
      have := sqSum_nonneg (x :: xs)
      have := sqSum_nonneg ([] : List ℚ)
      simp only [List.map_nil, List.sum_nil, mul_zero]
      norm_num
    | cons y ys =>
      simp only [List.zipWith_cons_cons, List.map_cons, List.sum_cons]
      have hS := ih ys
      have hA := sqSum_nonneg xs
      have hB := sqSum_nonneg ys
      set S := (List.zipWith (fun x y => x * y) xs ys).sum with hSdef
      set A := (xs.map fun x => x ^ 2).sum with hAdef
      set B := (ys.map fun x => x ^ 2).sum with hBdef
      rcases eq_or_lt_of_le hA with hA0 | hApos
      · have hSsq : S ^ 2 ≤ 0 := by nlinarith
        have hS0 : S = 0 := sq_eq_zero_iff.mp (le_antisymm hSsq (sq_nonneg S))
        rw [hS0, ← hA0]
        nlinarith [mul_nonneg (sq_nonneg x) hB]
      · nlinarith [sq_nonneg (x * S - y * A),
          mul_nonneg (add_nonneg (sq_nonneg x) hA) (sub_nonneg.mpr hS), hApos]

theorem gpuSsim_bounds (g1 g2 : List ℚ) : 0 ≤ gpuSsim g1 g2 ∧ gpuSsim g1 g2 ≤ 1 := by
  unfold gpuSsim
  constructor
  · exact le_max_left 0 _
  · exact max_le (by norm_num) (min_le_left 1 _)

theorem cpuSsim_bounds (rz : List ℚ → ℕ → List ℚ) (g1 g2 : List ℚ) :
    0 ≤ cpuSsim rz g1 g2 ∧ cpuSsim rz g1 g2 ≤ 1 := by
  unfold cpuSsim
  constructor
  · exact le_max_left 0 _
  · exact max_le (by norm_num) (min_le_left 1 _)

theorem hashSim_le_one (f g : Frame) : hashSim f g ≤ 1 := by
  unfold hashSim
  have : (0 : ℚ) ≤ (hammingDist (hashBits f.hash8) (hashBits g.hash8) : ℚ) / 64 := by
    positivity
  linarith

theorem corrSums_cauchy_schwarz (h1 h2 : List ℚ) (mu1 mu2 : ℚ) :
    ((List.zipWith (fun a b => (a - mu1) * (b - mu2)) h1 h2).sum) ^ 2 ≤
      ((h1.map fun a => (a - mu1) ^ 2).sum) * ((h2.map fun b => (b - mu2) ^ 2).sum) := by
  have base := zipWith_cauchy_schwarz (h1.map fun a => a - mu1) (h2.map fun b => b - mu2)
  have heq : List.zipWith (fun x y => x * y) (h1.map fun a => a - mu1)
      (h2.map fun b => b - mu2) =
      List.zipWith (fun a b => (a - mu1) * (b - mu2)) h1 h2 := by
    rw [List.zipWith_map]
  have heq1 : ((h1.map fun a => a - mu1).map fun x => x ^ 2) =
      h1.map fun a => (a - mu1) ^ 2 := by
    rw [List.map_map]; rfl
  have heq2 : ((h2.map fun b => b - mu2).map fun x => x ^ 2) =
      h2.map fun b => (b - mu2) ^ 2 := by
    rw [List.map_map]; rfl
  rw [heq, heq1, heq2] at base
  exact base

theorem histCorrel_bounds {sqrtFn : ℚ → ℚ} (hs : GoodSqrt sqrtFn)
    (h1 h2 : List ℚ) : |histCorrel sqrtFn h1 h2| ≤ 1 := by
  unfold histCorrel
  dsimp only
  split
  · norm_num
  · rename_i hne
    set mu1 := listMean h1 with hmu1
    set mu2 := listMean h2 with hmu2
    set s12 := (List.zipWith (fun a b => (a - mu1) * (b - mu2)) h1 h2).sum with hs12
    set s11 := (h1.map fun a => (a - mu1) ^ 2).sum with hs11
    set s22 := (h2.map fun b => (b - mu2) ^ 2).sum with hs22
    have h11 : 0 ≤ s11 := by
      rw [hs11]
      exact listSum_nonneg fun x hx => by
        rcases List.mem_map.mp hx with ⟨a, _, rfl⟩; positivity
    have h22 : 0 ≤ s22 := by
      rw [hs22]
      exact listSum_nonneg fun x hx => by
        rcases List.mem_map.mp hx with ⟨a, _, rfl⟩; positivity
    have hcs : s12 ^ 2 ≤ s11 * s22 := corrSums_cauchy_schwarz h1 h2 mu1 mu2
    have hpos : 0 < s11 * s22 := lt_of_le_of_ne (mul_nonneg h11 h22) (Ne.symm hne)
    obtain ⟨hr0, hr2⟩ := hs (s11 * s22) (le_of_lt hpos)
    have hrpos : 0 < sqrtFn (s11 * s22) := by
      rcases lt_or_eq_of_le hr0 with h | h
      · exact h
      · exfalso; rw [← h] at hr2; simp at hr2; nlinarith
    rw [abs_div, div_le_one (by rwa [abs_of_pos hrpos])]
    rw [abs_of_pos hrpos]
    nlinarith [abs_nonneg s12, sq_abs s12]

theorem zipWith_nonneg {α β : Type} (f : α → β → ℚ) (hf : ∀ a b, 0 ≤ f a b) :
    ∀ (l1 : List α) (l2 : List β) (x : ℚ), x ∈ List.zipWith f l1 l2 → 0 ≤ x := by
  intro l1
  induction l1 with
  | nil => intro l2 x hx; simp at hx
  | cons a as ih =>
    intro l2 x hx
    cases l2 with
    | nil => simp at hx
    | cons b bs =>
      rcases List.mem_cons.mp hx with rfl | hx
      · exact hf a b
      · exact ih bs x hx

theorem absDiffMean_nonneg (g1 g2 : List ℚ) : 0 ≤ absDiffMean g1 g2 := by
  unfold absDiffMean
  exact listMean_nonneg fun x hx =>
    zipWith_nonneg _ (fun a b => abs_nonneg (a - b)) g1 g2 x hx

theorem zipWith_absDiff_nonneg : ∀ (l1 l2 : List Frame) (x : ℚ),
    x ∈ List.zipWith (fun f g => absDiffMean f.gray g.gray) l1 l2 → 0 ≤ x := by
  intro l1
  induction l1 with
  | nil => intro l2 x hx; simp at hx
  | cons a as ih =>
    intro l2 x hx
    cases l2 with
    | nil => simp at hx
    | cons b bs =>
      rcases List.mem_cons.mp hx with rfl | hx
      · exact absDiffMean_nonneg a.gray b.gray
      · exact ih bs x hx

theorem frameDiffs_nonneg (sampleFrames : List Frame) :
    ∀ x ∈ frameDiffs sampleFrames, 0 ≤ x := by
  intro x hx
  unfold frameDiffs at hx
  exact zipWith_absDiff_nonneg sampleFrames sampleFrames.tail x hx

theorem motionConsistency_bounds {sqrtFn : ℚ → ℚ} (hs : GoodSqrt sqrtFn)
    (sampleFrames : List Frame) :
    0 ≤ motionConsistency sqrtFn sampleFrames ∧
      motionConsistency sqrtFn sampleFrames ≤ 1 := by
  unfold motionConsistency
  split
  · norm_num
  · split
    · norm_num
    · split
      · norm_num
      · rename_i hmu
        have hmu0 : 0 ≤ listMean (frameDiffs sampleFrames) :=
          listMean_nonneg (frameDiffs_nonneg sampleFrames)
        have hmupos : 0 < listMean (frameDiffs sampleFrames) :=
          lt_of_le_of_ne hmu0 (Ne.symm hmu)
        have hsd : 0 ≤ sqrtFn (listVar (frameDiffs sampleFrames)) :=
          (hs _ (listVar_nonneg _)).1
        constructor
        · exact le_max_left 0 _
        · refine max_le (by norm_num) ?_
          have : 0 ≤ sqrtFn (listVar (frameDiffs sampleFrames)) /
              listMean (frameDiffs sampleFrames) := div_nonneg hsd (le_of_lt hmupos)
          linarith

theorem calcLoopQuality_bounds {sqrtFn : ℚ → ℚ} (hs : GoodSqrt sqrtFn)
    (frames : List Frame) (i j : ℕ) {s : ℚ} (hs0 : 0 ≤ s) (hs1 : s ≤ 1) :
    0 ≤ calcLoopQuality sqrtFn frames i j s ∧ calcLoopQuality sqrtFn frames i j s ≤ 1 := by
  unfold calcLoopQuality
  split
  · obtain ⟨hm0, hm1⟩ := motionConsistency_bounds hs
      (loopSamples ((frames.drop i).take (j + 1 - i)))
    constructor <;> linarith
  · exact ⟨hs0, hs1⟩

theorem rankScore_bounds {desired : Option ℚ} {c : Candidate}
    (hq0 : 0 ≤ c.quality) (hq1 : c.quality ≤ 1) (hd : 1 / 2 ≤ c.duration)
    (hL : ∀ L, desired = some L → |c.duration - L| ≤ L * (1 / 5)) :
    0 ≤ rankScore desired c ∧ rankScore desired c ≤ 11 / 10 := by
  unfold rankScore
  have hbonus0 : 0 ≤ min (1 / 10) (c.duration / 10) := by
    refine le_min (by norm_num) ?_
    linarith
  have hbonus1 : min (1 / 10) (c.duration / 10) ≤ 1 / 10 := min_le_left _ _
  cases desired with
  | none =>
    constructor <;> simp only [] <;> linarith
  | some L =>
    simp only []
    have hdev := hL L rfl
    have habs : 0 ≤ |c.duration - L| := abs_nonneg _
    have hLpos : 0 < L := by
      by_contra hLn
      push_neg at hLn
      have : |c.duration - L| = c.duration - L := by
        refine abs_of_nonneg ?_
        linarith
      nlinarith
    have hpen0 : 0 ≤ |c.duration - L| / L := div_nonneg habs (le_of_lt hLpos)
    have hpen1 : |c.duration - L| / L ≤ 1 / 5 := by
      rw [div_le_iff₀ hLpos]
      linarith
    have hmin0 : 0 ≤ min (1 / 2) (|c.duration - L| / L) := le_min (by norm_num) hpen0
    have hmin1 : min (1 / 2) (|c.duration - L| / L) ≤ 1 / 2 := min_le_left _ _
    have hfac0 : 0 ≤ 1 - min (1 / 2) (|c.duration - L| / L) := by linarith
    have hfac1 : 1 - min (1 / 2) (|c.duration - L| / L) ≤ 1 := by linarith
    have hshaped0 : 0 ≤ c.quality * (1 - min (1 / 2) (|c.duration - L| / L)) :=
      mul_nonneg hq0 hfac0
    have hshaped1 : c.quality * (1 - min (1 / 2) (|c.duration - L| / L)) ≤ 1 := by
      calc c.quality * (1 - min (1 / 2) (|c.duration - L| / L)) ≤ 1 * 1 :=
            mul_le_mul hq1 hfac1 hfac0 (by norm_num)
        _ = 1 := by norm_num
    constructor <;> linarith

theorem hashSim_nonneg_of_le {τ : ℚ} (hτ : 0 ≤ τ) {f g : Frame}
    (h : τ ≤ hashSim f g) : 0 ≤ hashSim f g := le_trans hτ h

/-- Any pair emitted by the hash search with a nonnegative threshold has a
similarity in `[0, 1]`. -/
theorem gpuFindByHash_bounds {τ : ℚ} (hτ : 0 ≤ τ) {frames : List Frame}
    {p : SimPair} (hp : p ∈ gpuFindByHash τ frames) : 0 ≤ p.s ∧ p.s ≤ 1 := by
  unfold gpuFindByHash at hp
  rw [mem_sortBySimDesc] at hp
  obtain ⟨_, _, hle, hsim⟩ := mem_pairEmit.mp hp
  rw [hsim]
  exact ⟨le_trans hτ hle, hashSim_le_one _ _⟩

theorem gpuBatchSsim_bounds {rz : List ℚ → ℕ → List ℚ} {τ : ℚ}
    {frames : List Frame} {p : SimPair} (hp : p ∈ gpuBatchSsim rz τ frames) :
    0 ≤ p.s ∧ p.s ≤ 1 := by
  unfold gpuBatchSsim at hp
  rw [mem_sortBySimDesc] at hp
  obtain ⟨_, _, _, hsim⟩ := mem_pairEmit.mp hp
  rw [hsim]
  exact gpuSsim_bounds _ _

/-- Membership characterisation of the hybrid searcher's output. -/
theorem mem_gpuHybridSt {rz : List ℚ → ℕ → List ℚ} {st : GPUState}
    {frames : List Frame} {p : SimPair} :
    p ∈ (gpuHybridSt rz st frames).1 ↔
      p.i < p.j ∧ p.j < frames.length ∧
      max (8 / 10) (st.threshold - 1 / 10) ≤
        hashSim (frames.getD p.i default) (frames.getD p.j default) ∧
      st.threshold ≤ gpuSsimResized rz
        (frames.getD p.i default).gray (frames.getD p.j default).gray ∧
      p.s = 3 / 10 * hashSim (frames.getD p.i default) (frames.getD p.j default) +
            7 / 10 * gpuSsimResized rz
              (frames.getD p.i default).gray (frames.getD p.j default).gray := by
  unfold gpuHybridSt
  dsimp only
  split
  · rename_i hempty
    rw [List.isEmpty_iff] at hempty
    unfold gpuFindByHash at hempty
    rw [sortBySimDesc_eq_nil] at hempty
    simp only [List.not_mem_nil, false_iff]
    rintro ⟨hij, hjn, hhash, _, _⟩
    have : (⟨p.i, p.j, hashSim (frames.getD p.i default) (frames.getD p.j default)⟩ :
        SimPair) ∈ pairEmit
          (fun i j => hashSim (frames.getD i default) (frames.getD j default))
          (max (8 / 10) (st.threshold - 1 / 10)) frames.length := by
      rw [mem_pairEmit]
      exact ⟨hij, hjn, hhash, rfl⟩
    rw [hempty] at this
    exact absurd this (List.not_mem_nil _)
  · rw [mem_sortBySimDesc, List.mem_filterMap]
    constructor
    · rintro ⟨q, hq, hqp⟩
      unfold gpuFindByHash at hq
      rw [mem_sortBySimDesc] at hq
      obtain ⟨hij, hjn, hhash, hsim⟩ := mem_pairEmit.mp hq
      rw [Option.ite_none_right_eq_some, Option.some.injEq] at hqp
      obtain ⟨hssim, hqp⟩ := hqp
      subst hqp
      refine ⟨hij, hjn, hhash, hssim, ?_⟩
      show 3 / 10 * q.s + 7 / 10 * _ = _
      rw [hsim]
    · rintro ⟨hij, hjn, hhash, hssim, hps⟩
      refine ⟨⟨p.i, p.j, hashSim (frames.getD p.i default) (frames.getD p.j default)⟩,
        ?_, ?_⟩
      · unfold gpuFindByHash
        rw [mem_sortBySimDesc, mem_pairEmit]
        exact ⟨hij, hjn, hhash, rfl⟩
      · rw [Option.ite_none_right_eq_some, Option.some.injEq]
        refine ⟨hssim, ?_⟩
        cases p
        simp only at hps ⊢
        rw [hps]

theorem gpuHybrid_pair_bounds {rz : List ℚ → ℕ → List ℚ} {st : GPUState}
    {frames : List Frame} {p : SimPair} (hp : p ∈ (gpuHybridSt rz st frames).1) :
    0 ≤ p.s ∧ p.s ≤ 1 := by
  obtain ⟨_, _, hhash, _, hps⟩ := mem_gpuHybridSt.mp hp
  have hh0 : (0 : ℚ) ≤ hashSim (frames.getD p.i default) (frames.getD p.j default) := by
    have : (8 / 10 : ℚ) ≤ max (8 / 10) (st.threshold - 1 / 10) := le_max_left _ _
    linarith
  have hh1 := hashSim_le_one (frames.getD p.i default) (frames.getD p.j default)
  obtain ⟨hs0, hs1⟩ := gpuSsim_bounds
    (frames.getD p.i default).gray
    (if ((frames.getD p.j default).gray).length = ((frames.getD p.i default).gray).length
     then (frames.getD p.j default).gray
     else rz (frames.getD p.j default).gray ((frames.getD p.i default).gray).length)
  rw [hps]
  unfold gpuSsimResized
  constructor <;> nlinarith

theorem histogramSimilarity_le_one {sqrtFn : ℚ → ℚ} (hs : GoodSqrt sqrtFn)
    (f g : Frame) : histogramSimilarity sqrtFn f g ≤ 1 := by
  unfold histogramSimilarity listMean
  have hR := abs_le.mp (histCorrel_bounds hs f.histR g.histR)
  have hG := abs_le.mp (histCorrel_bounds hs f.histG g.histG)
  have hB := abs_le.mp (histCorrel_bounds hs f.histB g.histB)
  simp only [List.sum_cons, List.sum_nil, List.length_cons, List.length_nil]
  norm_num
  linarith [hR.2, hG.2, hB.2]

theorem cpuHashSim_bounds (f g : Frame) : 0 ≤ cpuHashSim f g ∧ cpuHashSim f g ≤ 1 := by
  unfold cpuHashSim
  split <;> norm_num

/-- Every value a known CPU method can produce is at most 1. -/
theorem cpuCalcSimilarity_le_one {sqrtFn : ℚ → ℚ} (hs : GoodSqrt sqrtFn)
    (resizeFn : List ℚ → ℕ → List ℚ) (method : String) (f g : Frame) {v : ℚ}
    (hv : cpuCalcSimilarity sqrtFn resizeFn method f g = some v) : v ≤ 1 := by
  unfold cpuCalcSimilarity at hv
  split at hv
  · cases hv; exact (cpuSsim_bounds _ _ _).2
  · split at hv
    · cases hv; exact histogramSimilarity_le_one hs f g
    · split at hv
      · cases hv; exact (cpuHashSim_bounds f g).2
      · split at hv
        · cases hv
          have h1 := (cpuSsim_bounds resizeFn f.gray g.gray).2
          have h2 := histogramSimilarity_le_one hs f g
          linarith
        · exact absurd hv (by simp)

/-- Every pair returned by `find_similar_frames` has a similarity in `[0, 1]`
when the threshold is in `[0, 1]`. -/
theorem cpuFindSimilarFrames_bounds {sqrtFn : ℚ → ℚ} (hs : GoodSqrt sqrtFn)
    {resizeFn : List ℚ → ℕ → List ℚ} {τ : ℚ} (hτ : 0 ≤ τ)
    {cache : List Frame} {framesArg : Option (List Frame)} {method : String}
    {l : List SimPair}
    (hl : cpuFindSimilarFrames sqrtFn resizeFn τ cache framesArg method = .ok l)
    {p : SimPair} (hp : p ∈ l) : 0 ≤ p.s ∧ p.s ≤ 1 := by
  unfold cpuFindSimilarFrames at hl
  split at hl
  · exact absurd hl (by simp)
  · split at hl
    · exact absurd hl (by simp)
    · rename_i hempty hknown
      cases hl
      rw [mem_sortBySimDesc] at hp
      obtain ⟨hij, hjn, hle, hsim⟩ := mem_pairEmit.mp hp
      push_neg at hknown
      set frames := effFrames cache framesArg with hframes
      rcases hov : cpuCalcSimilarity sqrtFn resizeFn method
          (frames.getD p.i default) (frames.getD p.j default) with _ | v
      · exfalso
        have hkn : ¬ cpuMethodKnown method = true := by
          intro hk
          unfold cpuCalcSimilarity at hov
          unfold cpuMethodKnown at hk
          simp only [Bool.or_eq_true, decide_eq_true_eq] at hk
          rcases hk with ((h | h) | h) | h <;> simp [h] at hov
        have h2 : 2 ≤ frames.length := by omega
        exact hkn (by simpa using hknown h2)
      · have : (cpuCalcSimilarity sqrtFn resizeFn method
            (frames.getD p.i default) (frames.getD p.j default)).getD 0 = v := by
          rw [hov]; rfl
        rw [this] at hle hsim
        rw [hsim]
        exact ⟨le_trans hτ hle, cpuCalcSimilarity_le_one hs _ _ _ _ hov⟩

/-- Membership in the candidate list built by `_analyze_loop_candidates`. -/
theorem mem_analyzeLoopCandidates {sqrtFn : ℚ → ℚ} {origIdx : ℕ → ℕ} {fps : ℚ}
    {desired : Option ℚ} {d : ℕ} {frames : List Frame} {pairs : List SimPair}
    {c : Candidate} :
    c ∈ analyzeLoopCandidates sqrtFn origIdx fps desired d frames pairs ↔
      ∃ p ∈ pairs, ¬ loopDur origIdx fps p < 1 / 2 ∧
        ¬ tooFarFromDesired desired (loopDur origIdx fps p) = true ∧
        c = mkCandidate sqrtFn origIdx fps d frames p := by
  unfold analyzeLoopCandidates
  rw [List.mem_filterMap]
  constructor
  · rintro ⟨p, hp, hpc⟩
    split at hpc
    · exact absurd hpc (by simp)
    · split at hpc
      · exact absurd hpc (by simp)
      · rename_i h1 h2
        cases hpc
        exact ⟨p, hp, h1, by simpa using h2, rfl⟩
  · rintro ⟨p, hp, h1, h2, rfl⟩
    refine ⟨p, hp, ?_⟩
    rw [if_neg h1, if_neg (by simpa using h2)]

/-- Membership in the ranked list: every ranked candidate is an analyzed
candidate with its final score filled in. -/
theorem mem_rankLoopCandidates {desired : Option ℚ} {cands : List Candidate}
    {c : Candidate} :
    c ∈ rankLoopCandidates desired cands ↔
      ∃ c0 ∈ cands, c = { c0 with finalScore := rankScore desired c0 } := by
  unfold rankLoopCandidates
  split
  · rename_i hempty
    rw [List.isEmpty_iff] at hempty
    subst hempty
    simp
  · rw [mem_sortByFinalDesc, List.mem_map]
    constructor
    · rintro ⟨c0, hc0, rfl⟩; exact ⟨c0, hc0, rfl⟩
    · rintro ⟨c0, hc0, rfl⟩; exact ⟨c0, hc0, rfl⟩

theorem ceilCount_succ_dvd {d m : ℕ} (hd : 0 < d) (h : m % d = 0) :
    (m + 1 + d - 1) / d = (m + d - 1) / d + 1 := by
  obtain ⟨q, rfl⟩ := Nat.dvd_of_mod_eq_zero h
  have e1 : d * q + 1 + d - 1 = 0 + d * (q + 1) := by
    rw [Nat.mul_add, Nat.mul_one]; omega
  have e2 : d * q + d - 1 = (d - 1) + d * q := by omega
  rw [e1, e2, Nat.add_mul_div_left _ _ hd, Nat.add_mul_div_left _ _ hd,
    Nat.zero_div, Nat.div_eq_of_lt (by omega)]
  omega

theorem ceilCount_succ_not_dvd {d m : ℕ} (hd : 0 < d) (h : ¬ m % d = 0) :
    (m + 1 + d - 1) / d = (m + d - 1) / d := by
  have heq := Nat.div_add_mod m d
  have hrlt := Nat.mod_lt m hd
  have hr1 : 1 ≤ m % d := Nat.one_le_iff_ne_zero.mpr h
  have lhs : (m + 1 + d - 1) / d = m / d + 1 := by
    have e1 : m + 1 + d - 1 = m % d + d * (m / d + 1) := by
      rw [Nat.mul_add, Nat.mul_one]; omega
    rw [e1, Nat.add_mul_div_left _ _ hd, Nat.div_eq_of_lt hrlt, Nat.zero_add]
  have rhs : (m + d - 1) / d = m / d + 1 := by
    have e2 : m + d - 1 = (m % d - 1) + d * (m / d + 1) := by
      rw [Nat.mul_add, Nat.mul_one]; omega
    rw [e2, Nat.add_mul_div_left _ _ hd,
      Nat.div_eq_of_lt (lt_of_le_of_lt (Nat.sub_le _ _) hrlt), Nat.zero_add]
  rw [lhs, rhs]

theorem ceilCount_mul {d q : ℕ} (hd : 0 < d) : (d * q + d - 1) / d = q := by
  have e2 : d * q + d - 1 = (d - 1) + d * q := by omega
  rw [e2, Nat.add_mul_div_left _ _ hd, Nat.div_eq_of_lt (by omega), Nat.zero_add]

/-- The original indices recorded by the GPU extraction are exactly the
arithmetic progression `start, start + d, start + 2·d, …` clipped to the
window. -/
theorem gpuExtractIndices_eq (startF d : ℕ) (hd : 1 ≤ d) : ∀ n : ℕ,
    (List.range' startF n).filter (fun idx => (idx - startF) % d = 0) =
      (List.range ((n + d - 1) / d)).map fun k => startF + k * d := by
  intro n
  induction n with
  | zero =>
    rw [Nat.div_eq_of_lt (by omega)]
    simp
  | succ m ih =>
    rw [List.range'_1_concat, List.filter_append, ih]
    by_cases hmd : m % d = 0
    · rw [ceilCount_succ_dvd hd hmd, List.range_succ, List.map_append]
      congr 1
      simp only [List.filter_cons, List.filter_nil]
      rw [if_pos (by simp only [Nat.add_sub_cancel_left]; simpa using hmd)]
      simp only [List.map_cons, List.map_nil, List.cons.injEq, and_true]
      obtain ⟨q, rfl⟩ := Nat.dvd_of_mod_eq_zero hmd
      rw [ceilCount_mul hd, Nat.mul_comm]
    · rw [ceilCount_succ_not_dvd hd hmd]
      simp only [List.filter_cons, List.filter_nil]
      rw [if_neg (by simp only [Nat.add_sub_cancel_left]; simpa using hmd)]
      simp

/-- Every pair returned by `find_similar_frames_optimized` has a similarity
in `[0, 1]` when the threshold is nonnegative, whichever method produced it. -/
theorem gpuFindSimilarOptimized_bounds {rz : List ℚ → ℕ → List ℚ}
    {st : GPUState} (hτ : 0 ≤ st.threshold) {framesArg : Option (List Frame)}
    {method : String} {l : List SimPair}
    (hl : (gpuFindSimilarOptimized rz st framesArg method).1 = .ok l)
    {p : SimPair} (hp : p ∈ l) : 0 ≤ p.s ∧ p.s ≤ 1 := by
  unfold gpuFindSimilarOptimized at hl
  split at hl
  · exact absurd hl (by simp)
  · split at hl
    · replace hl : Except.ok (gpuFindByHash st.threshold
          (effFrames st.framesCache framesArg)) = Except.ok l := hl
      injection hl with hl
      subst hl
      exact gpuFindByHash_bounds hτ hp
    · split at hl
      · replace hl : Except.ok (gpuBatchSsim rz st.threshold
            (effFrames st.framesCache framesArg)) = Except.ok l := hl
        injection hl with hl
        subst hl
        exact gpuBatchSsim_bounds hp
      · split at hl
        · replace hl : Except.ok (gpuHybridSt rz st
              (effFrames st.framesCache framesArg)).1 = Except.ok l := hl
          injection hl with hl
          subst hl
          exact gpuHybrid_pair_bounds hp
        · exact absurd hl (by simp)

/-- Every candidate of a successful `detect_loops` run stems from a similar
pair whose similarity lies in `[0, 1]`, passed the duration filters, and
carries the ranked `mkCandidate` data. -/
theorem detectLoops_mem_spec {kind : AnalyzerKind} {sqrtFn : ℚ → ℚ}
    {resizeFn : List ℚ → ℕ → List ℚ} {τ fps : ℚ} {desired : Option ℚ}
    {startTime : ℚ} {endTime : Option ℚ} {sfArg efArg : Option ℤ} {d : ℕ}
    {method : String} {video : List Frame} {cands : List Candidate}
    {c : Candidate} (hs : GoodSqrt sqrtFn) (hτ : 0 ≤ τ)
    (hok : detectLoops kind sqrtFn resizeFn τ fps desired startTime endTime
      sfArg efArg d method video = .ok cands)
    (hc : c ∈ cands) :
    ∃ (origIdx : ℕ → ℕ) (frames : List Frame) (p : SimPair),
      0 ≤ p.s ∧ p.s ≤ 1 ∧
      ¬ loopDur origIdx fps p < 1 / 2 ∧
      ¬ tooFarFromDesired desired (loopDur origIdx fps p) = true ∧
      c = { mkCandidate sqrtFn origIdx fps d frames p with
            finalScore := rankScore desired
              (mkCandidate sqrtFn origIdx fps d frames p) } := by
  unfold detectLoops at hok
  split at hok
  · exact absurd hok (by simp)
  · cases kind with
    | gpu =>
      unfold detectLoopsFromWindow at hok
      dsimp only at hok
      split at hok
      · exact absurd hok (by simp)
      · rename_i pairs hpairs
        split at hok
        · injection hok with hok
          subst hok
          exact absurd hc (List.not_mem_nil _)
        · injection hok with hok
          subst hok
          obtain ⟨c0, hc0, rfl⟩ := mem_rankLoopCandidates.mp hc
          obtain ⟨p, hp, h1, h2, rfl⟩ := mem_analyzeLoopCandidates.mp hc0
          obtain ⟨hp0, hp1⟩ := gpuFindSimilarOptimized_bounds hτ hpairs hp
          exact ⟨_, _, p, hp0, hp1, h1, h2, rfl⟩
    | cpu =>
      unfold detectLoopsFromWindow at hok
      dsimp only at hok
      split at hok
      · exact absurd hok (by simp)
      · rename_i pairs hpairs
        split at hok
        · injection hok with hok
          subst hok
          exact absurd hc (List.not_mem_nil _)
        · injection hok with hok
          subst hok
          obtain ⟨c0, hc0, rfl⟩ := mem_rankLoopCandidates.mp hc
          obtain ⟨p, hp, h1, h2, rfl⟩ := mem_analyzeLoopCandidates.mp hc0
          obtain ⟨hp0, hp1⟩ := cpuFindSimilarFrames_bounds hs hτ hpairs hp
          exact ⟨_, _, p, hp0, hp1, h1, h2, rfl⟩

/-- C9: every call to `FrameAnalyzer.find_similar_frames` or
`GPUFrameAnalyzer.find_similar_frames_optimized` whose effective frame list is
empty (no argument and an empty cache, or an empty list passed) raises
`ValueError` ("No frames available for analysis") rather than returning an
empty pair list. -/
theorem C9_empty_frames_raise (sqrtFn : ℚ → ℚ) (resizeFn : List ℚ → ℕ → List ℚ)
    (τ : ℚ) (cache : List Frame) (framesArg : Option (List Frame))
    (method : String) (st : GPUState)
    (hcpu : effFrames cache framesArg = [])
    (hgpu : effFrames st.framesCache framesArg = []) :
    cpuFindSimilarFrames sqrtFn resizeFn τ cache framesArg method =
      .error "No frames available for analysis" ∧
    (gpuFindSimilarOptimized resizeFn st framesArg method).1 =
      .error "No frames available for analysis" := by
  constructor
  · unfold cpuFindSimilarFrames
    rw [if_pos (by rw [hcpu]; rfl)]
  · unfold gpuFindSimilarOptimized
    rw [if_pos (by rw [hgpu]; rfl)]

theorem C9_witness :
    cpuFindSimilarFrames sqrtOne (fun l _ => l) 1 [] none "combined" =
      Except.error "No frames available for analysis" ∧
    (gpuFindSimilarOptimized (fun l _ => l) ⟨1, []⟩ none "hybrid").1 =
      Except.error "No frames available for analysis" :=
  ⟨(C9_empty_frames_raise sqrtOne (fun l _ => l) 1 [] none "combined"
      ⟨1, []⟩ rfl rfl).1,
   (C9_empty_frames_raise sqrtOne (fun l _ => l) 1 [] none "hybrid"
      ⟨1, []⟩ rfl rfl).2⟩

/-- C10: a completed call to `find_similar_frames_optimized` with method
`"hybrid"` leaves the analyzer's `similarity_threshold` attribute unchanged,
even though the hash pre-filter phase temporarily lowers it to
`max(0.8, threshold - 0.1)`.  (Proved for every call, completed or not.) -/
theorem C10_hybrid_restores_threshold (resizeFn : List ℚ → ℕ → List ℚ)
    (st : GPUState) (framesArg : Option (List Frame)) :
    ((gpuFindSimilarOptimized resizeFn st framesArg "hybrid").2).threshold =
      st.threshold := by
  unfold gpuFindSimilarOptimized
  split
  · rfl
  · rw [if_neg (by decide), if_neg (by decide), if_pos rfl]
    unfold gpuHybridSt
    dsimp only
    split <;> rfl

/-- C2 counterexample: with `total_frames = 100`, `fps = 10`,
`start_time = 5 s`, `end_time = 3 s` and no explicit frame indices, the
resolved window is collapsed (start 50, end 30), yet `detect_loops` does not
fail with `InvalidRange`: clamping repairs the window to `[50, 51)` and the
run returns a result (the empty candidate list). -/
theorem C2_counterexample :
    preClampWindow 100 10 5 (some 3) none none = (50, 30) ∧
    ((30 : ℤ) ≤ 50) ∧
    resolveWindow 100 10 5 (some 3) none none = (50, 51) ∧
    detectLoops .gpu sqrtOne (fun l _ => l) (9 / 10) 10 none 5 (some 3)
      none none 1 "fast_hash" (List.replicate 100 default) = .ok [] := by
  refine ⟨by with_unfolding_all rfl, by norm_num, by with_unfolding_all rfl, ?_⟩
  with_unfolding_all rfl

/-- C2 (amended): `detect_loops` resolves the window by converting
start/end seconds to frames via `int(t * fps)`, explicit frame indices
override the time values, the start is clamped to `[0, total - 1]` and the
end to `[start + 1, total]`; a collapsed window (pre-clamp start ≥ end) is
repaired to the one-frame window `[start, start + 1)` instead of raising
`InvalidRange`, so the resolved window always satisfies
`0 ≤ start < end ≤ total`. -/
theorem C2_amended_window_resolution (total : ℤ) (fps st1 st2 : ℚ)
    (et et2 : Option ℚ) (sf ef : Option ℤ) (f g : ℤ) (h1 : 1 ≤ total) :
    (0 ≤ (resolveWindow total fps st1 et sf ef).1 ∧
     (resolveWindow total fps st1 et sf ef).1 < total ∧
     (resolveWindow total fps st1 et sf ef).1 <
       (resolveWindow total fps st1 et sf ef).2 ∧
     (resolveWindow total fps st1 et sf ef).2 ≤ total) ∧
    resolveWindow total fps st1 et (some f) (some g) =
      resolveWindow total fps st2 et2 (some f) (some g) ∧
    ((preClampWindow total fps st1 et sf ef).2 ≤
        (preClampWindow total fps st1 et sf ef).1 →
      0 ≤ (preClampWindow total fps st1 et sf ef).1 →
      (preClampWindow total fps st1 et sf ef).1 < total →
      resolveWindow total fps st1 et sf ef =
        ((preClampWindow total fps st1 et sf ef).1,
         (preClampWindow total fps st1 et sf ef).1 + 1)) := by
  refine ⟨?_, ?_, ?_⟩
  · unfold resolveWindow
    refine ⟨?_, ?_, ?_, ?_⟩ <;> dsimp only <;> omega
  · unfold resolveWindow preClampWindow
    rfl
  · intro hcol h0 hlt
    unfold resolveWindow
    have he : min (preClampWindow total fps st1 et sf ef).2 total ≤
        (preClampWindow total fps st1 et sf ef).1 := by
      have := min_le_left (preClampWindow total fps st1 et sf ef).2 total
      omega
    rw [Prod.mk.injEq]
    constructor <;> omega

theorem C2_amended_witness :
    (0 ≤ (resolveWindow 100 10 5 (some 3) none none).1 ∧
     (resolveWindow 100 10 5 (some 3) none none).1 < 100 ∧
     (resolveWindow 100 10 5 (some 3) none none).1 <
       (resolveWindow 100 10 5 (some 3) none none).2 ∧
     (resolveWindow 100 10 5 (some 3) none none).2 ≤ 100) ∧
    resolveWindow 100 10 5 (some 3) (some 7) (some 9) =
      resolveWindow 100 10 0 none (some 7) (some 9) ∧
    ((preClampWindow 100 10 5 (some 3) none none).2 ≤
        (preClampWindow 100 10 5 (some 3) none none).1 →
      0 ≤ (preClampWindow 100 10 5 (some 3) none none).1 →
      (preClampWindow 100 10 5 (some 3) none none).1 < 100 →
      resolveWindow 100 10 5 (some 3) none none =
        ((preClampWindow 100 10 5 (some 3) none none).1,
         (preClampWindow 100 10 5 (some 3) none none).1 + 1)) :=
  C2_amended_window_resolution 100 10 5 0 (some 3) none none none 7 9
    (by norm_num)

/-- C1: on the GPU path the sampled-index bookkeeping is exactly the claimed
mapping: the `k`-th extracted frame's recorded original index is
`window_start + k·stride`, the mapping is strictly increasing, and
`get_original_frame_index` (used by `_analyze_loop_candidates` to fill the
candidates) realises it.  On the CPU path, however, `extract_frames` ignores
the stride and reads every frame — the `k`-th sampled frame is original frame
`window_start + k` — while `_analyze_loop_candidates` still records
`window_start + k·stride`: at `window_start = 0`, `d = 2`, `k = 1` the sampled
frame is original frame 1 but the recorded index is 2. -/
theorem C1_index_mapping (s e d : ℕ) (hd : 1 ≤ d) :
    (∀ k, k < (gpuExtractIndices s e d).length →
        (gpuExtractIndices s e d).getD k 0 = s + k * d) ∧
    (∀ k1 k2, k1 < k2 → k2 < (gpuExtractIndices s e d).length →
        (gpuExtractIndices s e d).getD k1 0 < (gpuExtractIndices s e d).getD k2 0) ∧
    (∀ k, k < (gpuExtractIndices s e d).length →
        getOriginalFrameIndex (gpuExtractIndices s e d) k = s + k * d) ∧
    ((cpuExtractIndices 0 4).getD 1 0 = 1 ∧ cpuRecordedOrig 0 2 1 = 2 ∧
      (1 : ℕ) ≠ 2) := by
  have hlist : gpuExtractIndices s e d =
      (List.range ((e - s + d - 1) / d)).map fun k => s + k * d := by
    unfold gpuExtractIndices pyRange
    exact gpuExtractIndices_eq s d hd (e - s)
  have hget : ∀ k, k < (gpuExtractIndices s e d).length →
      (gpuExtractIndices s e d).getD k 0 = s + k * d := by
    intro k hk
    rw [hlist] at hk ⊢
    rw [List.length_map, List.length_range] at hk
    rw [List.getD_eq_getElem?_getD, List.getElem?_map, List.getElem?_range hk]
    rfl
  refine ⟨hget, ?_, ?_, by decide⟩
  · intro k1 k2 h12 hk2
    rw [hget k1 (lt_trans h12 hk2), hget k2 hk2]
    have : k1 * d < k2 * d := by
      exact Nat.mul_lt_mul_of_lt_of_le h12 (le_refl d) (by omega)
    omega
  · intro k hk
    unfold getOriginalFrameIndex
    rw [if_pos hk]
    exact hget k hk

theorem C1_witness :
    (gpuExtractIndices 3 12 4).getD 2 0 = 3 + 2 * 4 ∧
    (gpuExtractIndices 3 12 4).getD 0 0 < (gpuExtractIndices 3 12 4).getD 2 0 ∧
    getOriginalFrameIndex (gpuExtractIndices 3 12 4) 1 = 3 + 1 * 4 ∧
    (cpuExtractIndices 0 4).getD 1 0 = 1 ∧ cpuRecordedOrig 0 2 1 = 2 :=
  ⟨(C1_index_mapping 3 12 4 (by norm_num)).1 2 (by decide),
   (C1_index_mapping 3 12 4 (by norm_num)).2.1 0 2 (by norm_num) (by decide),
   (C1_index_mapping 3 12 4 (by norm_num)).2.2.1 1 (by decide),
   (C1_index_mapping 3 12 4 (by norm_num)).2.2.2.1,
   (C1_index_mapping 3 12 4 (by norm_num)).2.2.2.2.1⟩

/-- Every candidate of a successful `detect_loops` run, whatever the
threshold, stems from a pair that passed the duration filters. -/
theorem detectLoops_mem_basic {kind : AnalyzerKind} {sqrtFn : ℚ → ℚ}
    {resizeFn : List ℚ → ℕ → List ℚ} {τ fps : ℚ} {desired : Option ℚ}
    {startTime : ℚ} {endTime : Option ℚ} {sfArg efArg : Option ℤ} {d : ℕ}
    {method : String} {video : List Frame} {cands : List Candidate}
    {c : Candidate}
    (hok : detectLoops kind sqrtFn resizeFn τ fps desired startTime endTime
      sfArg efArg d method video = .ok cands)
    (hc : c ∈ cands) :
    ∃ (origIdx : ℕ → ℕ) (frames : List Frame) (p : SimPair),
      ¬ loopDur origIdx fps p < 1 / 2 ∧
      ¬ tooFarFromDesired desired (loopDur origIdx fps p) = true ∧
      c = { mkCandidate sqrtFn origIdx fps d frames p with
            finalScore := rankScore desired
              (mkCandidate sqrtFn origIdx fps d frames p) } := by
  unfold detectLoops at hok
  split at hok
  · exact absurd hok (by simp)
  · cases kind with
    | gpu =>
      unfold detectLoopsFromWindow at hok
      dsimp only at hok
      split at hok
      · exact absurd hok (by simp)
      · rename_i pairs hpairs
        split at hok
        · injection hok with hok
          subst hok
          exact absurd hc (List.not_mem_nil _)
        · injection hok with hok
          subst hok
          obtain ⟨c0, hc0, rfl⟩ := mem_rankLoopCandidates.mp hc
          obtain ⟨p, hp, h1, h2, rfl⟩ := mem_analyzeLoopCandidates.mp hc0
          exact ⟨_, _, p, h1, h2, rfl⟩
    | cpu =>
      unfold detectLoopsFromWindow at hok
      dsimp only at hok
      split at hok
      · exact absurd hok (by simp)
      · rename_i pairs hpairs
        split at hok
        · injection hok with hok
          subst hok
          exact absurd hc (List.not_mem_nil _)
        · injection hok with hok
          subst hok
          obtain ⟨c0, hc0, rfl⟩ := mem_rankLoopCandidates.mp hc
          obtain ⟨p, hp, h1, h2, rfl⟩ := mem_analyzeLoopCandidates.mp hc0
          exact ⟨_, _, p, h1, h2, rfl⟩

/-- C3: every candidate returned by a successful `detect_loops` run passed
the duration filters of `_analyze_loop_candidates`: its duration is at least
0.5 s, and when a numeric desired loop length `L` is given its duration is
within 20 % of `L`. -/
theorem C3_duration_filters {kind : AnalyzerKind} {sqrtFn : ℚ → ℚ}
    {resizeFn : List ℚ → ℕ → List ℚ} {τ fps : ℚ} {desired : Option ℚ}
    {startTime : ℚ} {endTime : Option ℚ} {sfArg efArg : Option ℤ} {d : ℕ}
    {method : String} {video : List Frame} {cands : List Candidate}
    {c : Candidate}
    (hok : detectLoops kind sqrtFn resizeFn τ fps desired startTime endTime
      sfArg efArg d method video = .ok cands)
    (hc : c ∈ cands) :
    1 / 2 ≤ c.duration ∧
    ∀ L, desired = some L → |c.duration - L| ≤ L * (1 / 5) := by
  obtain ⟨origIdx, frames, p, h1, h2, rfl⟩ :=
    detectLoops_mem_basic hok hc
  have hdur : ({ mkCandidate sqrtFn origIdx fps d frames p with
      finalScore := rankScore desired (mkCandidate sqrtFn origIdx fps d frames p) } :
      Candidate).duration = loopDur origIdx fps p := rfl
  rw [hdur]
  refine ⟨le_of_not_lt h1, ?_⟩
  intro L hL
  subst hL
  simp only [tooFarFromDesired, decide_eq_true_eq] at h2
  exact le_of_not_lt h2

def c3video : List Frame := [default, default]

def c3cand : Candidate := ⟨0, 1, 0, 1, 1, 1, 1, 1, 1, 1, 11 / 10⟩

theorem C3_witness : 1 / 2 ≤ c3cand.duration :=
  (C3_duration_filters
    (show detectLoops .gpu sqrtOne (fun l _ => l) (9 / 10) 1 none 0 none
      none none 1 "fast_hash" c3video = .ok [c3cand] by with_unfolding_all rfl)
    (List.mem_singleton.mpr rfl)).1

/-- C6: every candidate returned by a successful `detect_loops` run has a
quality score in `[0, 1]` and a final score in `[0, 1.1]` (quality, shrunk by
the length-preference factor, plus the duration bonus capped at 0.1),
provided the similarity threshold is nonnegative. -/
theorem C6_score_bounds {kind : AnalyzerKind} {sqrtFn : ℚ → ℚ}
    {resizeFn : List ℚ → ℕ → List ℚ} {τ fps : ℚ} {desired : Option ℚ}
    {startTime : ℚ} {endTime : Option ℚ} {sfArg efArg : Option ℤ} {d : ℕ}
    {method : String} {video : List Frame} {cands : List Candidate}
    {c : Candidate} (hs : GoodSqrt sqrtFn) (hτ : 0 ≤ τ)
    (hok : detectLoops kind sqrtFn resizeFn τ fps desired startTime endTime
      sfArg efArg d method video = .ok cands)
    (hc : c ∈ cands) :
    (0 ≤ c.quality ∧ c.quality ≤ 1) ∧
    (0 ≤ c.finalScore ∧ c.finalScore ≤ 11 / 10) := by
  obtain ⟨origIdx, frames, p, hp0, hp1, h1, h2, rfl⟩ :=
    detectLoops_mem_spec hs hτ hok hc
  obtain ⟨hq0, hq1⟩ := calcLoopQuality_bounds hs frames p.i p.j hp0 hp1
  have hdurle : 1 / 2 ≤ (mkCandidate sqrtFn origIdx fps d frames p).duration :=
    le_of_not_lt h1
  have hLs : ∀ L, desired = some L →
      |(mkCandidate sqrtFn origIdx fps d frames p).duration - L| ≤ L * (1 / 5) := by
    intro L hL
    subst hL
    simp only [tooFarFromDesired, decide_eq_true_eq] at h2
    exact le_of_not_lt h2
  obtain ⟨hr0, hr1⟩ :=
    @rankScore_bounds desired (mkCandidate sqrtFn origIdx fps d frames p)
      hq0 hq1 hdurle hLs
  exact ⟨⟨hq0, hq1⟩, hr0, hr1⟩

def c6video : List Frame := [default, default]

def c6cand : Candidate := ⟨0, 1, 0, 1, 1, 1, 1, 1, 1, 1, 11 / 10⟩

theorem C6_witness :
    (0 ≤ c6cand.quality ∧ c6cand.quality ≤ 1) ∧
    (0 ≤ c6cand.finalScore ∧ c6cand.finalScore ≤ 11 / 10) :=
  C6_score_bounds goodSqrt_sqrtOne (by norm_num)
    (show detectLoops .cpu sqrtOne (fun l _ => l) (9 / 10) 1 none 0 none
      none none 1 "hash" c6video = .ok [c6cand] by with_unfolding_all rfl)
    (List.mem_singleton.mpr rfl)

/-- Emission at a higher threshold implies emission at a lower one. -/
theorem pairEmit_threshold_mono {τ1 τ2 : ℚ} (h12 : τ1 ≤ τ2)
    {simf : ℕ → ℕ → ℚ} {n : ℕ} {p : SimPair} (hp : p ∈ pairEmit simf τ2 n) :
    p ∈ pairEmit simf τ1 n := by
  rw [mem_pairEmit] at hp ⊢
  obtain ⟨hij, hjn, hle, hs⟩ := hp
  exact ⟨hij, hjn, le_trans h12 hle, hs⟩

/-- C7: for every strategy and every fixed frame list, raising the threshold
monotonically shrinks the emitted pair set: every pair found at `τ2 ≥ τ1` is
also found at `τ1` (with the same recorded similarity). -/
theorem C7_threshold_monotonicity {τ1 τ2 : ℚ} (h12 : τ1 ≤ τ2) :
    (∀ (frames : List Frame) (p : SimPair),
        p ∈ gpuFindByHash τ2 frames → p ∈ gpuFindByHash τ1 frames) ∧
    (∀ (rz : List ℚ → ℕ → List ℚ) (frames : List Frame) (p : SimPair),
        p ∈ gpuBatchSsim rz τ2 frames → p ∈ gpuBatchSsim rz τ1 frames) ∧
    (∀ (rz : List ℚ → ℕ → List ℚ) (cache frames : List Frame) (p : SimPair),
        p ∈ (gpuHybridSt rz ⟨τ2, cache⟩ frames).1 →
        p ∈ (gpuHybridSt rz ⟨τ1, cache⟩ frames).1) ∧
    (∀ (sqrtFn : ℚ → ℚ) (rz : List ℚ → ℕ → List ℚ) (method : String)
        (cache : List Frame) (framesArg : Option (List Frame))
        (l1 l2 : List SimPair) (p : SimPair),
        cpuFindSimilarFrames sqrtFn rz τ1 cache framesArg method = .ok l1 →
        cpuFindSimilarFrames sqrtFn rz τ2 cache framesArg method = .ok l2 →
        p ∈ l2 → p ∈ l1) := by
  refine ⟨?_, ?_, ?_, ?_⟩
  · intro frames p hp
    unfold gpuFindByHash at hp ⊢
    rw [mem_sortBySimDesc] at hp ⊢
    exact pairEmit_threshold_mono h12 hp
  · intro rz frames p hp
    unfold gpuBatchSsim at hp ⊢
    rw [mem_sortBySimDesc] at hp ⊢
    exact pairEmit_threshold_mono h12 hp
  · intro rz cache frames p hp
    rw [mem_gpuHybridSt] at hp ⊢
    obtain ⟨hij, hjn, hhash, hssim, hs⟩ := hp
    refine ⟨hij, hjn, ?_, le_trans h12 hssim, hs⟩
    refine le_trans ?_ hhash
    exact max_le_max (le_refl _) (by linarith)
  · intro sqrtFn rz method cache framesArg l1 l2 p h1 h2 hp
    unfold cpuFindSimilarFrames at h1 h2
    split at h1
    · exact absurd h1 (by simp)
    · rename_i hne
      split at h1
      · exact absurd h1 (by simp)
      · rename_i hkn
        rw [if_neg hne, if_neg hkn] at h2
        injection h1 with h1
        injection h2 with h2
        subst h1
        subst h2
        rw [mem_sortBySimDesc] at hp ⊢
        exact pairEmit_threshold_mono h12 hp

def c7frames : List Frame := [default, default]

theorem C7_witness :
    (⟨0, 1, 1⟩ : SimPair) ∈ gpuFindByHash (1 / 2) c7frames ∧
    (⟨0, 1, 1⟩ : SimPair) ∈ gpuBatchSsim (fun l _ => l) (1 / 2) c7frames ∧
    (⟨0, 1, 1⟩ : SimPair) ∈ (gpuHybridSt (fun l _ => l) ⟨1 / 2, []⟩ c7frames).1 ∧
    (⟨0, 1, 1⟩ : SimPair) ∈ [(⟨0, 1, 1⟩ : SimPair)] :=
  ⟨(@C7_threshold_monotonicity (1 / 2) (9 / 10) (by norm_num)).1 c7frames ⟨0, 1, 1⟩ (by
      rw [show gpuFindByHash (9 / 10) c7frames = [⟨0, 1, 1⟩] from by
        with_unfolding_all rfl]
      exact List.mem_singleton.mpr rfl),
   (@C7_threshold_monotonicity (1 / 2) (9 / 10) (by norm_num)).2.1
      (fun l _ => l) c7frames ⟨0, 1, 1⟩ (by
      rw [show gpuBatchSsim (fun l _ => l) (9 / 10) c7frames = [⟨0, 1, 1⟩] from by
        with_unfolding_all rfl]
      exact List.mem_singleton.mpr rfl),
   (@C7_threshold_monotonicity (1 / 2) (9 / 10) (by norm_num)).2.2.1
      (fun l _ => l) [] c7frames ⟨0, 1, 1⟩ (by
      rw [show (gpuHybridSt (fun l _ => l) ⟨9 / 10, []⟩ c7frames).1 = [⟨0, 1, 1⟩] from by
        with_unfolding_all rfl]
      exact List.mem_singleton.mpr rfl),
   (@C7_threshold_monotonicity (1 / 2) (9 / 10) (by norm_num)).2.2.2
      sqrtOne (fun l _ => l) "hash"
      [] (some c7frames) [⟨0, 1, 1⟩] [⟨0, 1, 1⟩] ⟨0, 1, 1⟩
      (by with_unfolding_all rfl) (by with_unfolding_all rfl)
      (List.mem_singleton.mpr rfl)⟩

/-- The five frames the spec asks `_calculate_loop_quality` to select from a
loop slice of at least 11 frames: evenly spaced positions with both endpoints
included (positions `m·(len−1)/4` for `m = 0..4`). -/
def specSelectedFrames (slice : List Frame) : List Frame :=
  [slice.getD 0 default,
   slice.getD ((slice.length - 1) / 4) default,
   slice.getD (2 * (slice.length - 1) / 4) default,
   slice.getD (3 * (slice.length - 1) / 4) default,
   slice.getD (slice.length - 1) default]

/-- The motion-consistency value the spec describes: mean `μ` and standard
deviation `σ` of the 4 consecutive absolute-difference means of the selected
frames; `C = 1` when `μ = 0`, else `max(0, 1 − σ/μ)`. -/
def specMotionC (sqrtFn : ℚ → ℚ) (slice : List Frame) : ℚ :=
  if listMean (frameDiffs (specSelectedFrames slice)) = 0 then 1
  else max 0 (1 - sqrtFn (listVar (frameDiffs (specSelectedFrames slice))) /
    listMean (frameDiffs (specSelectedFrames slice)))

theorem loopSamples_eq_spec {slice : List Frame} (h5 : 5 ≤ slice.length) :
    loopSamples slice = specSelectedFrames slice := by
  unfold loopSamples npLinspaceIdx specSelectedFrames
  rw [min_eq_left h5]
  rw [show List.range 5 = [0, 1, 2, 3, 4] from rfl]
  simp only [List.map_cons, List.map_nil]
  rw [Nat.zero_mul, Nat.zero_div, Nat.one_mul,
    Nat.mul_div_cancel_left (slice.length - 1) (by norm_num : (0 : ℕ) < 4)]

theorem motionConsistency_eq_specMotionC (sqrtFn : ℚ → ℚ) {slice : List Frame}
    (h5 : 5 ≤ slice.length) :
    motionConsistency sqrtFn (loopSamples slice) = specMotionC sqrtFn slice := by
  rw [loopSamples_eq_spec h5]
  unfold motionConsistency specMotionC
  rw [if_neg (by show ¬ ((5 : ℕ) < 2); omega),
      if_neg (by show ¬ (false = true); decide)]

/-- C4: for every candidate pair `(i, j, s)` over the sampled frames, when the
inclusive loop slice holds at least 11 frames, the 5 selected frames are the
evenly spaced positions of the slice with both endpoints included, and the
quality is `0.7·s + 0.3·C` with `C` the spec's motion consistency; when the
slice holds fewer than 11 frames the quality is `s` itself. -/
theorem C4_quality_formula (sqrtFn : ℚ → ℚ) (frames : List Frame) (i j : ℕ)
    (s : ℚ) (h11 : 11 ≤ ((frames.drop i).take (j + 1 - i)).length) :
    loopSamples ((frames.drop i).take (j + 1 - i)) =
      specSelectedFrames ((frames.drop i).take (j + 1 - i)) ∧
    calcLoopQuality sqrtFn frames i j s =
      7 / 10 * s + 3 / 10 * specMotionC sqrtFn ((frames.drop i).take (j + 1 - i)) ∧
    (∀ (i' j' : ℕ) (s' : ℚ),
        ((frames.drop i').take (j' + 1 - i')).length < 11 →
        calcLoopQuality sqrtFn frames i' j' s' = s') := by
  refine ⟨loopSamples_eq_spec (by omega), ?_, ?_⟩
  · unfold calcLoopQuality
    rw [if_pos (by omega), motionConsistency_eq_specMotionC sqrtFn (by omega)]
  · intro i' j' s' hlt
    unfold calcLoopQuality
    rw [if_neg (by omega)]

def c4frames : List Frame := List.replicate 12 default

theorem C4_witness :
    loopSamples ((c4frames.drop 0).take (11 + 1 - 0)) =
      specSelectedFrames ((c4frames.drop 0).take (11 + 1 - 0)) ∧
    calcLoopQuality sqrtOne c4frames 0 11 1 =
      7 / 10 * 1 + 3 / 10 * specMotionC sqrtOne ((c4frames.drop 0).take (11 + 1 - 0)) :=
  ⟨(C4_quality_formula sqrtOne c4frames 0 11 1 (by decide)).1,
   (C4_quality_formula sqrtOne c4frames 0 11 1 (by decide)).2.1⟩

/-- C5 (amended): the hash, batch-SSIM and CPU searchers do return their pair
lists sorted by similarity descending with ties in `(i, j)`-lexicographic
order (the emission order is the upper-triangular traversal and the Python
sort is stable); the hybrid searcher only guarantees similarity descending —
its ties keep the order of the hash pre-filter phase, which is sorted by hash
similarity, not by `(i, j)`. -/
theorem C5_amended_sort_order :
    (∀ (τ : ℚ) (frames : List Frame), DescLexOrder (gpuFindByHash τ frames)) ∧
    (∀ (rz : List ℚ → ℕ → List ℚ) (τ : ℚ) (frames : List Frame),
        DescLexOrder (gpuBatchSsim rz τ frames)) ∧
    (∀ (sqrtFn : ℚ → ℚ) (rz : List ℚ → ℕ → List ℚ) (τ : ℚ)
        (cache : List Frame) (framesArg : Option (List Frame)) (method : String)
        (l : List SimPair),
        cpuFindSimilarFrames sqrtFn rz τ cache framesArg method = .ok l →
        DescLexOrder l) ∧
    (∀ (rz : List ℚ → ℕ → List ℚ) (st : GPUState) (frames : List Frame),
        ((gpuHybridSt rz st frames).1).Pairwise fun a b => b.s ≤ a.s) := by
  refine ⟨?_, ?_, ?_, ?_⟩
  · intro τ frames
    exact sortBySimDesc_descLex (pairEmit_pairwise_lexLT _ _ _)
  · intro rz τ frames
    exact sortBySimDesc_descLex (pairEmit_pairwise_lexLT _ _ _)
  · intro sqrtFn rz τ cache framesArg method l hl
    unfold cpuFindSimilarFrames at hl
    split at hl
    · exact absurd hl (by simp)
    · split at hl
      · exact absurd hl (by simp)
      · injection hl with hl
        subst hl
        exact sortBySimDesc_descLex (pairEmit_pairwise_lexLT _ _ _)
  · intro rz st frames
    unfold gpuHybridSt
    dsimp only
    split
    · exact List.Pairwise.nil
    · exact sortBySimDesc_sorted _

/-- The tie-building pixel offsets of the C5 counterexample. -/
def c5xs : List ℚ :=
  [733444469507227 / 279840295150000, 37179689 / 279840295150000,
   289 / 2238722361200, 47 / 11193611806000, 1, 1, 1, 1]

/-- 8×8 grayscale planes: 31 pixels at 20, one boundary pixel, 32 low pixels. -/
def c5g0 : List ℚ := List.replicate 31 20 ++ [15] ++ List.replicate 32 10

/-- `c5g0` with the boundary pixel lowered below the mean and one low pixel
raised, preserving the mean (hash distance 1 to `c5g0`). -/
def c5g1 : List ℚ :=
  List.replicate 31 20 ++ [29 / 2, 21 / 2] ++ List.replicate 31 10

/-- `c5g0` with sixteen low pixels moved by `±c5xs`, preserving mean and hash
bits (hash distance 0 to `c5g0`) and tuned so that the combined hybrid scores
of the pairs (0,1) and (0,2) coincide exactly. -/
def c5g2 : List ℚ :=
  List.replicate 31 20 ++ [15, 10] ++ c5xs.map (fun x => 10 + x) ++
    c5xs.map (fun x => 10 - x) ++ List.replicate 15 10

/-- A frame whose stored 8×8 hash plane equals its grayscale plane. -/
def mkC5Frame (g : List ℚ) : Frame := ⟨g, g, [], [], []⟩

def c5Frames : List Frame := [mkC5Frame c5g0, mkC5Frame c5g1, mkC5Frame c5g2]

set_option maxRecDepth 40000 in
/-- C5 counterexample: on these three frames the hybrid search returns the
tied pair (0,2) before the tied pair (0,1) — similarity ties are not broken
by `i` ascending then `j` ascending. -/
theorem C5_counterexample :
    (gpuFindSimilarOptimized (fun l _ => l) ⟨9 / 10, []⟩ (some c5Frames)
        "hybrid").1 =
      .ok [⟨0, 2, 40059970699 / 40253137280⟩,
           ⟨0, 1, 40059970699 / 40253137280⟩,
           ⟨1, 2, 70208681781470750833 / 70889479313302103680⟩] ∧
    ¬ DescLexOrder [⟨0, 2, 40059970699 / 40253137280⟩,
           ⟨0, 1, 40059970699 / 40253137280⟩,
           ⟨1, 2, 70208681781470750833 / 70889479313302103680⟩] := by
  constructor
  · with_unfolding_all rfl
  · intro h
    unfold DescLexOrder at h
    cases h with
    | cons h1 _ =>
      have h2 := h1 _ (List.mem_cons_self _ _)
      rcases h2 with hlt | ⟨heq, hlex⟩
      · exact absurd hlt (lt_irrefl _)
      · unfold lexLT at hlex
        dsimp only at hlex
        omega

theorem dropWhile_spaces_id {cs : List Char} (h : ∀ c ∈ cs, c ≠ ' ') :
    cs.dropWhile (· = ' ') = cs := by
  cases cs with
  | nil => rfl
  | cons c rest =>
    rw [List.dropWhile_cons, if_neg]
    simp only [decide_eq_true_eq]
    exact h c (List.mem_cons_self c rest)

theorem stripSpaces_id {cs : List Char} (h : ∀ c ∈ cs, c ≠ ' ') :
    stripSpaces cs = cs := by
  unfold stripSpaces
  rw [dropWhile_spaces_id h, dropWhile_spaces_id, List.reverse_reverse]
  intro c hc
  exact h c (List.mem_reverse.mp hc)

theorem takeDigits_cons_digit {c : Char} (hc : c.isDigit = true)
    (cs : List Char) :
    takeDigits (c :: cs) = (c :: (takeDigits cs).1, (takeDigits cs).2) := by
  rw [show takeDigits (c :: cs) = if c.isDigit then
      (c :: (takeDigits cs).1, (takeDigits cs).2) else ([], c :: cs) from rfl,
    if_pos hc]

theorem takeDigits_cons_not_digit {c : Char} (hc : ¬ c.isDigit = true)
    (cs : List Char) : takeDigits (c :: cs) = ([], c :: cs) := by
  rw [show takeDigits (c :: cs) = if c.isDigit then
      (c :: (takeDigits cs).1, (takeDigits cs).2) else ([], c :: cs) from rfl,
    if_neg hc]

theorem takeDigits_all_digits {ds : List Char}
    (h : ∀ c ∈ ds, c.isDigit = true) : takeDigits ds = (ds, []) := by
  induction ds with
  | nil => rfl
  | cons c rest ih =>
    rw [takeDigits_cons_digit (h c (List.mem_cons_self c rest)),
      ih fun x hx => h x (List.mem_cons_of_mem c hx)]

theorem pySign_no_sign {c : Char} (h1 : ¬ c = '+') (h2 : ¬ c = '-')
    (cs : List Char) : pySign (c :: cs) = (false, c :: cs) := by
  rw [show pySign (c :: cs) = if c = '+' then (false, cs)
      else if c = '-' then (true, cs) else (false, c :: cs) from rfl,
    if_neg h1, if_neg h2]

theorem pySign_digit {c : Char} (hc : c.isDigit = true) (cs : List Char) :
    pySign (c :: cs) = (false, c :: cs) := by
  refine pySign_no_sign ?_ ?_ cs <;> intro he <;> subst he <;>
    exact absurd hc (by decide)

theorem digit_ne_space {c : Char} (hc : c.isDigit = true) : c ≠ ' ' := by
  intro he
  subst he
  exact absurd hc (by decide)

theorem colon_mem_takeDigits {cs : List Char} (h : ':' ∈ cs) :
    ':' ∈ (takeDigits cs).2 := by
  induction cs with
  | nil => exact absurd h (List.not_mem_nil _)
  | cons c rest ih =>
    by_cases hc : c.isDigit = true
    · rw [takeDigits_cons_digit hc]
      rcases List.mem_cons.mp h with h | h
      · subst h
        exact absurd hc (by decide)
      · exact ih h
    · rw [takeDigits_cons_not_digit hc]
      exact h

theorem colon_mem_pySign {cs : List Char} (h : ':' ∈ cs) :
    ':' ∈ (pySign cs).2 := by
  cases cs with
  | nil => exact absurd h (List.not_mem_nil _)
  | cons c rest =>
    by_cases h1 : c = '+'
    · subst h1
      rw [show pySign ('+' :: rest) = (false, rest) from rfl]
      rcases List.mem_cons.mp h with h | h
      · exact absurd h (by decide)
      · exact h
    · by_cases h2 : c = '-'
      · subst h2
        rw [show pySign ('-' :: rest) = (true, rest) from rfl]
        rcases List.mem_cons.mp h with h | h
        · exact absurd h (by decide)
        · exact h
      · rw [pySign_no_sign h1 h2]
        exact h

theorem colon_mem_pyFloatMantissa {cs r : List Char} {m : ℚ}
    (hm : pyFloatMantissa cs = some (m, r)) (h : ':' ∈ cs) : ':' ∈ r := by
  have htd := colon_mem_takeDigits h
  unfold pyFloatMantissa at hm
  split at hm
  · rename_i ds heq
    rw [heq] at htd
    dsimp only at htd
    exact absurd htd (List.not_mem_nil _)
  · rename_i ds c r2 heq
    rw [heq] at htd
    dsimp only at htd
    split at hm
    · rename_i hdot
      subst hdot
      split at hm
      · exact absurd hm (by simp)
      · injection hm with hm
        rw [Prod.mk.injEq] at hm
        obtain ⟨-, hr⟩ := hm
        subst hr
        rcases List.mem_cons.mp htd with h3 | h3
        · exact absurd h3 (by decide)
        · exact colon_mem_takeDigits h3
    · split at hm
      · exact absurd hm (by simp)
      · injection hm with hm
        rw [Prod.mk.injEq] at hm
        obtain ⟨-, hr⟩ := hm
        subst hr
        exact htd

theorem colon_mem_pyFloatExp {r r2 : List Char} {ex : ℤ}
    (he : pyFloatExp r = some (ex, r2)) (h : ':' ∈ r) : ':' ∈ r2 := by
  cases r with
  | nil => exact absurd h (List.not_mem_nil _)
  | cons c rest =>
    unfold pyFloatExp at he
    dsimp only at he
    split at he
    · rename_i hce
      split at he
      · exact absurd he (by simp)
      · injection he with he
        rw [Prod.mk.injEq] at he
        obtain ⟨-, hr2⟩ := he
        subst hr2
        have h1 : ':' ∈ rest := by
          rcases List.mem_cons.mp h with h | h
          · subst h
            rcases hce with h2 | h2 <;> exact absurd h2 (by decide)
          · exact h
        exact colon_mem_takeDigits (colon_mem_pySign h1)
    · injection he with he
      rw [Prod.mk.injEq] at he
      obtain ⟨-, hr2⟩ := he
      subst hr2
      exact h

theorem pyFloatOfList_colon {cs : List Char} (h : ':' ∈ stripSpaces cs) :
    pyFloatOfList cs = none := by
  have h1 := colon_mem_pySign h
  unfold pyFloatOfList
  dsimp only
  split
  · rfl
  · rename_i m r hm
    have h2 := colon_mem_pyFloatMantissa hm h1
    split
    · rfl
    · rename_i ex r2 he
      have h3 := colon_mem_pyFloatExp he h2
      rw [if_neg]
      intro hi
      rw [List.isEmpty_iff] at hi
      subst hi
      exact absurd h3 (List.not_mem_nil _)

theorem pyFloatMantissa_digits_rest {cs : List Char}
    (hne : ¬ (takeDigits cs).1.isEmpty = true)
    (hrest : (takeDigits cs).2 = []) :
    pyFloatMantissa cs = some ((digitsVal (takeDigits cs).1 : ℚ), []) := by
  have hpair : takeDigits cs = ((takeDigits cs).1, []) := Prod.ext rfl hrest
  unfold pyFloatMantissa
  rw [hpair]
  dsimp only
  rw [if_neg hne]

theorem pyFloatMantissa_digits_frac {cs ds : List Char}
    (hne : ¬ (takeDigits cs).1.isEmpty = true)
    (hrest : (takeDigits cs).2 = '.' :: ds)
    (hall : ∀ c ∈ ds, c.isDigit = true) :
    pyFloatMantissa cs = some ((digitsVal (takeDigits cs).1 : ℚ) +
      (digitsVal ds : ℚ) / 10 ^ ds.length, []) := by
  have hpair : takeDigits cs = ((takeDigits cs).1, '.' :: ds) :=
    Prod.ext rfl hrest
  unfold pyFloatMantissa
  rw [hpair]
  dsimp only
  rw [if_pos rfl, takeDigits_all_digits hall]
  rw [if_neg]
  exact fun hand => hne hand.1

theorem pyFloatOfList_eval {cs : List Char} {m : ℚ}
    (hsg : (pySign (stripSpaces cs)).1 = false)
    (hm : pyFloatMantissa (pySign (stripSpaces cs)).2 = some (m, [])) :
    pyFloatOfList cs = some m := by
  unfold pyFloatOfList
  dsimp only
  split
  · rename_i heq
    rw [hm] at heq
    exact absurd heq (by simp)
  · rename_i m' r' heq
    rw [hm] at heq
    injection heq with heq
    rw [Prod.mk.injEq] at heq
    obtain ⟨hm', hr'⟩ := heq
    subst hm'
    subst hr'
    rw [show pyFloatExp ([] : List Char) = some ((0 : ℤ), ([] : List Char))
      from rfl]
    simp [hsg]

theorem pyIntOfList_digits {ds : List Char} (hne : ds ≠ [])
    (hall : ∀ c ∈ ds, c.isDigit = true) :
    pyIntOfList ds = some (digitsVal ds : ℤ) := by
  have hsp : ∀ c ∈ ds, c ≠ ' ' := fun c hc => digit_ne_space (hall c hc)
  unfold pyIntOfList
  dsimp only
  rw [stripSpaces_id hsp]
  cases ds with
  | nil => exact absurd rfl hne
  | cons c rest =>
    rw [pySign_digit (hall c (List.mem_cons_self c rest))]
    rw [if_neg]
    · rfl
    · rintro (he | hna)
      · exact absurd he (by simp)
      · exact hna (List.all_eq_true.mpr fun x hx => hall x hx)

theorem fracTail_chars {rest : List Char} (hf : fracTail rest = true) :
    ∀ c ∈ rest, c = '.' ∨ c.isDigit = true := by
  unfold fracTail at hf
  split at hf
  · intro c hc
    exact absurd hc (List.not_mem_nil _)
  · rename_i ds
    rw [Bool.and_eq_true] at hf
    obtain ⟨-, hall⟩ := hf
    intro c hc
    rcases List.mem_cons.mp hc with rfl | hc
    · exact Or.inl rfl
    · exact Or.inr (List.all_eq_true.mp hall c hc)
  · exact absurd hf (by simp)

theorem secField_float {p : List Char} (h : secField p = true) :
    pyFloatOfList p = some (secFieldVal p) := by
  rcases p with _ | ⟨a, _ | ⟨b, rest⟩⟩
  · exact absurd h (by decide)
  · simp only [secField] at h
    exact absurd h (by simp)
  · simp only [secField, Bool.and_eq_true] at h
    obtain ⟨⟨ha, hb⟩, hf⟩ := h
    have hstrip : stripSpaces (a :: b :: rest) = a :: b :: rest := by
      apply stripSpaces_id
      intro c hc
      rcases List.mem_cons.mp hc with rfl | hc
      · exact digit_ne_space ha
      rcases List.mem_cons.mp hc with rfl | hc
      · exact digit_ne_space hb
      rcases fracTail_chars hf c hc with rfl | hd
      · decide
      · exact digit_ne_space hd
    have hsg : (pySign (stripSpaces (a :: b :: rest))).1 = false := by
      rw [hstrip, pySign_digit ha]
    unfold fracTail at hf
    split at hf
    · -- rest = []
      have h1 : takeDigits ([a, b] : List Char) = ([a, b], []) :=
        takeDigits_all_digits (by
          intro c hc
          rcases List.mem_cons.mp hc with rfl | hc
          · exact ha
          rcases List.mem_cons.mp hc with rfl | hc
          · exact hb
          · exact absurd hc (List.not_mem_nil _))
      have hm := @pyFloatMantissa_digits_rest [a, b]
        (by rw [h1]; simp) (by rw [h1])
      rw [pyFloatOfList_eval hsg (by rw [hstrip, pySign_digit ha]; exact hm)]
      rw [Option.some.injEq, h1]
      show ((digitsVal [a, b] : ℚ)) = secFieldVal [a, b]
      simp only [digitsVal, secFieldVal, fracVal, List.foldl]
      push_cast
      ring
    · -- rest = '.' :: ds
      rename_i ds
      rw [Bool.and_eq_true] at hf
      obtain ⟨-, hall⟩ := hf
      have hallp : ∀ c ∈ ds, c.isDigit = true := List.all_eq_true.mp hall
      have h1 : takeDigits (a :: b :: '.' :: ds) = ([a, b], '.' :: ds) := by
        rw [takeDigits_cons_digit ha, takeDigits_cons_digit hb,
          takeDigits_cons_not_digit (by decide)]
      have hm := @pyFloatMantissa_digits_frac (a :: b :: '.' :: ds) ds
        (by rw [h1]; simp) (by rw [h1]) hallp
      rw [pyFloatOfList_eval hsg (by rw [hstrip, pySign_digit ha]; exact hm)]
      rw [Option.some.injEq, h1]
      show (digitsVal [a, b] : ℚ) + (digitsVal ds : ℚ) / 10 ^ ds.length =
        secFieldVal (a :: b :: '.' :: ds)
      simp only [digitsVal, secFieldVal, fracVal, List.foldl]
      push_cast
      ring
    · exact absurd hf (by simp)

theorem head_digit_of_takeDigits {cs : List Char}
    (hne : ¬ (takeDigits cs).1.isEmpty = true) :
    ∃ c rest, cs = c :: rest ∧ c.isDigit = true := by
  cases cs with
  | nil => exact absurd rfl hne
  | cons c rest =>
    by_cases hc : c.isDigit = true
    · exact ⟨c, rest, rfl, hc⟩
    · rw [takeDigits_cons_not_digit hc] at hne
      exact absurd rfl hne

theorem pyFloatOfList_plain {cs : List Char} (hsp : ∀ c ∈ cs, c ≠ ' ')
    {v : ℚ} (h : plainSecondsVal cs = some v) : pyFloatOfList cs = some v := by
  have hstrip := stripSpaces_id hsp
  unfold plainSecondsVal at h
  split at h
  · rename_i ds heq
    split at h
    · exact absurd h (by simp)
    · rename_i hne'
      injection h with h
      have hne : ¬ (takeDigits cs).1.isEmpty = true := by
        rw [heq]
        exact hne'
      have hrest : (takeDigits cs).2 = [] := by rw [heq]
      obtain ⟨c, rest, rfl, hcd⟩ := head_digit_of_takeDigits hne
      have hsg : (pySign (stripSpaces (c :: rest))).1 = false := by
        rw [hstrip, pySign_digit hcd]
      have hmant := pyFloatMantissa_digits_rest hne hrest
      rw [heq] at hmant
      dsimp only at hmant
      rw [h] at hmant
      refine pyFloatOfList_eval hsg ?_
      rw [hstrip, pySign_digit hcd]
      exact hmant
  · rename_i ds cdot fs heq
    split at h
    · exact absurd h (by simp)
    · rename_i hne'
      split at h
      · rename_i hd
        obtain ⟨hdot, hfs⟩ := hd
        subst hdot
        rw [Bool.and_eq_true] at hfs
        obtain ⟨-, hall⟩ := hfs
        injection h with h
        have hne : ¬ (takeDigits cs).1.isEmpty = true := by
          rw [heq]
          exact hne'
        have hrest : (takeDigits cs).2 = '.' :: fs := by rw [heq]
        obtain ⟨c, rest, rfl, hcd⟩ := head_digit_of_takeDigits hne
        have hsg : (pySign (stripSpaces (c :: rest))).1 = false := by
          rw [hstrip, pySign_digit hcd]
        have hmant := pyFloatMantissa_digits_frac hne hrest
          (List.all_eq_true.mp hall)
        rw [heq] at hmant
        dsimp only at hmant
        rw [h] at hmant
        refine pyFloatOfList_eval hsg ?_
        rw [hstrip, pySign_digit hcd]
        exact hmant
      · exact absurd h (by simp)

theorem splitOnColon_ne_nil (cs : List Char) : splitOnColon cs ≠ [] := by
  cases cs with
  | nil => simp [splitOnColon]
  | cons c rest =>
    unfold splitOnColon
    split
    · simp
    · split <;> simp

theorem splitOnColon_single {cs p : List Char} (h : splitOnColon cs = [p]) :
    cs = p := by
  induction cs generalizing p with
  | nil =>
    unfold splitOnColon at h
    injection h with h1 h2
    try exact h1
  | cons c rest ih =>
    unfold splitOnColon at h
    split at h
    · injection h with h1 h2
      exact absurd h2 (splitOnColon_ne_nil rest)
    · split at h
      · rename_i heq
        exact absurd heq (splitOnColon_ne_nil rest)
      · rename_i q qs heq
        injection h with h1 h2
        subst h2
        rw [ih heq]
        try exact h1

theorem colon_mem_of_two_parts {cs : List Char}
    (h : 2 ≤ (splitOnColon cs).length) : ':' ∈ cs := by
  induction cs with
  | nil =>
    unfold splitOnColon at h
    simp at h
  | cons c rest ih =>
    by_cases hc : c = ':'
    · subst hc
      exact List.mem_cons_self _ _
    · unfold splitOnColon at h
      rw [if_neg hc] at h
      refine List.mem_cons_of_mem _ (ih ?_)
      rcases heq : splitOnColon rest with _ | ⟨q, qs⟩
      · exact absurd heq (splitOnColon_ne_nil rest)
      · rw [heq] at h
        dsimp only at h
        simp only [List.length_cons] at h ⊢
        omega

theorem oneTwoDigits_digits {p : List Char} (h : oneTwoDigits p = true) :
    p ≠ [] ∧ ∀ c ∈ p, c.isDigit = true := by
  rcases p with _ | ⟨a, _ | ⟨b, rest⟩⟩
  · exact absurd h (by decide)
  · simp only [oneTwoDigits] at h
    refine ⟨by simp, ?_⟩
    intro c hc
    rcases List.mem_cons.mp hc with rfl | hc
    · exact h
    · exact absurd hc (List.not_mem_nil _)
  · rcases rest with _ | ⟨d, rest2⟩
    · simp only [oneTwoDigits, Bool.and_eq_true] at h
      obtain ⟨ha, hb⟩ := h
      refine ⟨by simp, ?_⟩
      intro c hc
      rcases List.mem_cons.mp hc with rfl | hc
      · exact ha
      rcases List.mem_cons.mp hc with rfl | hc
      · exact hb
      · exact absurd hc (List.not_mem_nil _)
    · simp only [oneTwoDigits] at h
      exact absurd h (by simp)

/-- C8 (amended): on space-free input, every string of the three claimed
forms `HH:MM:SS[.frac]`, `MM:SS[.frac]` or plain seconds is accepted by the
effective `parse_time_string` with exactly the represented number of seconds.
(The converse fails: the parser also accepts strings outside the claimed
forms, see the counterexample.) -/
theorem C8_amended_parse {s : String} {v : ℚ} (hsp : ∀ c ∈ s.toList, c ≠ ' ')
    (hc : claimedParse s = some v) : parse_time_string s = some v := by
  unfold claimedParse at hc
  dsimp only at hc
  rw [stripSpaces_id hsp] at hc
  unfold parse_time_string
  split at hc
  · -- HH:MM:SS
    rename_i p1 p2 p3 heq
    split at hc
    · rename_i hcond
      simp only [Bool.and_eq_true, decide_eq_true_eq] at hcond
      obtain ⟨⟨h1, h2len, h2all⟩, h3⟩ := hcond
      obtain ⟨h1ne, h1all⟩ := oneTwoDigits_digits h1
      have h2ne : p2 ≠ [] := by
        intro h0
        rw [h0] at h2len
        exact absurd h2len (by simp)
      injection hc with hc
      have hfl : pyFloatOfList s.toList = none := by
        refine pyFloatOfList_colon ?_
        rw [stripSpaces_id hsp]
        refine colon_mem_of_two_parts ?_
        rw [heq]
        simp
      rw [hfl, heq]
      dsimp only
      rw [pyIntOfList_digits h1ne h1all,
        pyIntOfList_digits h2ne (List.all_eq_true.mp h2all),
        secField_float h3]
      show some (((digitsVal p1 : ℤ) : ℚ) * 3600 + ((digitsVal p2 : ℤ) : ℚ) * 60
        + secFieldVal p3) = some v
      rw [Option.some.injEq, ← hc]
      push_cast
      ring
    · exact absurd hc (by simp)
  · -- MM:SS
    rename_i p1 p2 heq
    split at hc
    · rename_i hcond
      simp only [Bool.and_eq_true] at hcond
      obtain ⟨h1, h2⟩ := hcond
      obtain ⟨h1ne, h1all⟩ := oneTwoDigits_digits h1
      injection hc with hc
      have hfl : pyFloatOfList s.toList = none := by
        refine pyFloatOfList_colon ?_
        rw [stripSpaces_id hsp]
        refine colon_mem_of_two_parts ?_
        rw [heq]
        simp
      rw [hfl, heq]
      dsimp only
      rw [pyIntOfList_digits h1ne h1all, secField_float h2]
      show some (((digitsVal p1 : ℤ) : ℚ) * 60 + secFieldVal p2) = some v
      rw [Option.some.injEq, ← hc]
      push_cast
      ring
    · exact absurd hc (by simp)
  · -- plain seconds
    rename_i p1 heq
    have hp := splitOnColon_single heq
    have hfl : pyFloatOfList s.toList = some v := by
      refine pyFloatOfList_plain hsp ?_
      rw [hp]
      exact hc
    rw [hfl]
  · exact absurd hc (by simp)

/-- C8 counterexample: `"1e2"` is in none of the three claimed forms (the
shadowed definition's regexes reject it), yet the effective
`parse_time_string` accepts it as 100 seconds via `float()` scientific
notation. -/
theorem C8_counterexample :
    claimedParse "1e2" = none ∧ parse_time_string "1e2" = some 100 := by
  constructor <;> with_unfolding_all rfl

theorem C8_witness : parse_time_string "1:23.5" = some (167 / 2) :=
  C8_amended_parse (by decide) (by with_unfolding_all rfl)

end LoopyCut
